import Mathlib

/-!
# fs-gc: retention walk of `fs_cleaner.go`

A shallow embedding of the expiry walker of `src/fs_cleaner.go`
(`determineFilesToBeDeleted`, `determineFilesToBeDeletedHelper`, `dateDiff`) together with the
parts of the Go runtime and standard library it calls (`os.ReadDir` as an oracle,
`time.Parse` for the layout `"2006/1/2"`, `time.Time.Sub`, `time.Duration.Hours`, and the
binary64 arithmetic behind `Hours() / 24`).

Go strings are embedded as Lean strings, Go `int` (64 bit) values that are only compared are
embedded as `Int`.
-/

namespace FsGc

/-! ## binary64 arithmetic (finite values) -/

/-- A finite binary64 value `m * 2 ^ e`.  The computations of `dateDiff` start from int64 values
and divide by the non-zero constants `3.6e12` and `24`, so infinities and NaN never arise. -/
structure F64 where
  m : Int
  e : Int
deriving DecidableEq, Repr

/-- Helper of `bitLen`, with an explicit bound on the number of halvings. -/
def bitLenAux : Nat → Nat → Nat
  | 0, _ => 0
  | fuel + 1, n => if n = 0 then 0 else bitLenAux fuel (n / 2) + 1

/-- Number of binary digits of `n` (`0` for `0`). -/
def bitLen (n : Nat) : Nat := bitLenAux n n

/-- The integer `⌊log₂ (n / d)⌋` for positive `n` and `d`. -/
def floorLog2 (n d : Nat) : Int :=
  let k0 : Int := (bitLen n : Int) - (bitLen d : Int)
  if d * 2 ^ k0.toNat ≤ n * 2 ^ (-k0).toNat then k0 else k0 - 1

/-- Round the non-negative rational `n / d` to the nearest integer, ties to even. -/
def roundHalfEven (n d : Nat) : Nat :=
  let q := n / d
  let r := n % d
  if 2 * r < d then q else if d < 2 * r then q + 1 else if q % 2 = 0 then q else q + 1

/-- IEEE 754 round-to-nearest-even of the non-negative rational `n / d` (`d > 0`) to binary64:
53 significant bits, exponent of the last place at least `-1074`. -/
def roundNat (n d : Nat) : Nat × Int :=
  if n = 0 then (0, 0)
  else
    let e : Int := max (floorLog2 n d - 52) (-1074)
    (roundHalfEven (n * 2 ^ (-e).toNat) (d * 2 ^ e.toNat), e)

/-- Round-to-nearest-even of the rational `n / d` (`d > 0`) to binary64; the rounding is symmetric
in the sign. -/
def F64.round (n : Int) (d : Nat) : F64 :=
  let r := roundNat n.natAbs d
  if n < 0 then ⟨-(r.1 : Int), r.2⟩ else ⟨(r.1 : Int), r.2⟩

/-- Conversion `float64(n)` of an integer. -/
def F64.ofInt (n : Int) : F64 := F64.round n 1

/-- Sum `x + y` of binary64 values: the exact sum, rounded. -/
def F64.add (x y : F64) : F64 :=
  let e0 := min x.e y.e
  let s := x.m * 2 ^ (x.e - e0).toNat + y.m * 2 ^ (y.e - e0).toNat
  F64.round (s * 2 ^ e0.toNat) (2 ^ (-e0).toNat)

/-- Quotient `x / y` of binary64 values for `y ≠ 0`: the exact quotient, rounded. -/
def F64.div (x y : F64) : F64 :=
  let s := x.e - y.e
  F64.round (x.m * Int.sign y.m * 2 ^ s.toNat) (y.m.natAbs * 2 ^ (-s).toNat)

/-- Conversion `int(x)`: the fractional part is discarded (truncation toward zero).  The values
converted by `dateDiff` are below `2 ^ 22` in absolute value, so they fit the 64 bit `int`. -/
def F64.toInt (x : F64) : Int :=
  Int.tdiv (x.m * 2 ^ x.e.toNat) (2 ^ (-x.e).toNat)

/-- The rational number a binary64 value stands for. -/
def F64.toRat (x : F64) : ℚ := (x.m : ℚ) * (2 : ℚ) ^ x.e

/-! ## `time` package -/

/-- An instant, as nanoseconds since the Unix epoch.  (Location and monotonic reading of Go's
`time.Time` play no role: `time.Parse` returns a wall-clock UTC time, so `Sub` compares wall
clocks.) -/
structure Time where
  unixNano : Int
deriving DecidableEq, Repr

/-- Smallest `time.Duration` (int64 nanoseconds). -/
def minDuration : Int := -(2 ^ 63)

/-- Largest `time.Duration`. -/
def maxDuration : Int := 2 ^ 63 - 1

/-- Nanoseconds of `time.Hour`. -/
def Hour : Int := 3600000000000

/-- Two's complement wrap-around of int64 arithmetic. -/
def wrapInt64 (x : Int) : Int := (x + 2 ^ 63) % 2 ^ 64 - 2 ^ 63

/-- The duration `t.Sub(u)`: the difference computed in int64, replaced by the minimum or maximum
duration when it is not the true difference. -/
def Time.Sub (t u : Time) : Int :=
  let d := wrapInt64 (t.unixNano - u.unixNano)
  if u.unixNano + d = t.unixNano then d
  else if t.unixNano < u.unixNano then minDuration
  else maxDuration

/-- The value `d.Hours()`: `float64(d / Hour) + float64(d % Hour) / (60 * 60 * 1e9)`. -/
def Hours (d : Int) : F64 :=
  let hour := Int.tdiv d Hour
  let nsec := Int.tmod d Hour
  F64.add (F64.ofInt hour) (F64.div (F64.ofInt nsec) (F64.ofInt (60 * 60 * 1000000000)))

/-- Decimal digit test `isDigit`. -/
def isDigit (c : Char) : Bool := decide ('0' ≤ c) && decide (c ≤ '9')

/-- Value of a decimal digit, `c - '0'`. -/
def digitVal (c : Char) : Nat := c.toNat - '0'.toNat

/-- Function `getnum(s, false)`: one or two decimal digits. -/
def getnum : List Char → Option (Nat × List Char)
  | [] => none
  | [c0] => if isDigit c0 then some (digitVal c0, []) else none
  | c0 :: c1 :: rest =>
    if !isDigit c0 then none
    else if !isDigit c1 then some (digitVal c0, c1 :: rest)
    else some (digitVal c0 * 10 + digitVal c1, rest)

/-- The `stdLongYear` ("2006") case of `time.Parse`: exactly four decimal digits. -/
def parseLongYear : List Char → Option (Nat × List Char)
  | c0 :: c1 :: c2 :: c3 :: rest =>
    if isDigit c0 && isDigit c1 && isDigit c2 && isDigit c3 then
      some (digitVal c0 * 1000 + digitVal c1 * 100 + digitVal c2 * 10 + digitVal c3, rest)
    else none
  | _ => none

/-- Function `skip(value, "/")`: the literal separator of the layout. -/
def skipSlash : List Char → Option (List Char)
  | c :: rest => if c = '/' then some rest else none
  | [] => none

/-- Gregorian leap year test `isLeap`. -/
def isLeap (year : Int) : Bool :=
  decide (year % 4 = 0) && (decide (year % 100 ≠ 0) || decide (year % 400 = 0))

/-- Table `daysBefore`: days of a non-leap year before the end of each month. -/
def daysBefore : List Nat := [0, 31, 59, 90, 120, 151, 181, 212, 243, 273, 304, 334, 365]

/-- Number of days of `month` in `year`, `daysIn`. -/
def daysIn (month : Nat) (year : Int) : Nat :=
  if month = 2 ∧ isLeap year = true then 29
  else daysBefore.getD month 0 - daysBefore.getD (month - 1) 0

/-- Days from 0001-01-01 to January 1st of `year` in the proleptic Gregorian calendar. -/
def daysBeforeYear (year : Int) : Int :=
  let y := year - 1
  365 * y + y / 4 - y / 100 + y / 400

/-- The instant `time.Date(year, month, day, 0, 0, 0, 0, time.UTC)` for a valid date. -/
def Date (year : Int) (month day : Nat) : Time :=
  let d : Int := daysBeforeYear year + (daysBefore.getD (month - 1) 0 : Nat)
    + (if isLeap year = true ∧ 3 ≤ month then 1 else 0) + ((day : Int) - 1)
  ⟨(d - 719162) * 86400 * 1000000000⟩

/-- Constant pattern used for formatting time. -/
def dateFormatterPattern : String := "2006/1/2"

/-- The call `time.Parse(dateFormatterPattern, value)`, specialised to the constant layout:
`none` when Go returns an error.  The layout is a four digit year (`stdLongYear`), `/`, a month of
one or two digits (`stdNumMonth`), `/`, a day of one or two digits (`stdDay`), and nothing more;
the month must lie in 1..12 and the day in 1..daysIn.  The result is a UTC time. -/
def timeParse (value : String) : Option Time :=
  match parseLongYear value.data with
  | none => none
  | some (year, v1) =>
    match skipSlash v1 with
    | none => none
    | some v2 =>
      match getnum v2 with
      | none => none
      | some (month, v3) =>
        if month = 0 ∨ 12 < month then none
        else
          match skipSlash v3 with
          | none => none
          | some v4 =>
            match getnum v4 with
            | none => none
            | some (day, v5) =>
              if v5 ≠ [] then none
              else if day < 1 ∨ daysIn month year < day then none
              else some (Date year month day)

/-! ## `fs_cleaner.go` -/

/-- This function returns difference between 2 dates in terms of number of days:
`int(currentDate.Sub(otherDate).Hours() / 24)`. -/
def dateDiff (currentDate otherDate : Time) : Int :=
  F64.toInt (F64.div (Hours (currentDate.Sub otherDate)) (F64.ofInt 24))

/-- One element of the slice returned by `os.ReadDir`. -/
structure DirEntry where
  name : String
  isDir : Bool
deriving DecidableEq, Repr

/-- The two ways a run ends without returning. -/
inductive Abort where
  /-- Call `log.Fatalf("Error parsing directory date: %v", err)`. -/
  | fatalDateParse
  /-- Runtime panic of `dirName[0]` on an empty name (`os.ReadDir` never produces one). -/
  | indexOutOfRange
deriving DecidableEq, Repr

/-- The package-level variables the walk writes: `companyId, year, month, date` and
`dirsToBeDeleted`. -/
structure Globals where
  companyId : String
  year : String
  month : String
  date : String
  dirsToBeDeleted : List String
deriving DecidableEq, Repr

/-- The package-level variables when the program starts (Go zero values). -/
def initGlobals : Globals := ⟨"", "", "", "", []⟩

/-- The file system as `os.ReadDir` shows it: for a path either an error (`none`: missing,
permission error, not a directory) or the entries of the directory, in listing order. -/
abbrev FileSystem := String → Option (List DirEntry)

/-- The retention map `companyDataRetentionMap` (a Go `map[string]int`; a nil map has no keys). -/
abbrev RetentionMap := String → Option Int

/-- Lines 119-122: `retention, ok := companyDataRetentionMap[companyId]`, and when `!ok`,
`retention = companyDataRetentionMap["default"]` (the zero value `0` for a missing key). -/
def lookupRetention (companyDataRetentionMap : RetentionMap) (companyId : String) : Int :=
  match companyDataRetentionMap companyId with
  | some retention => retention
  | none => (companyDataRetentionMap "default").getD 0

/-- Lines 117-143, the branch `nestingLevel > 5` of `determineFilesToBeDeletedHelper`. -/
def evalTerminal (pol : RetentionMap) (currentDate : Time) (topDir : String) (g : Globals) :
    Except Abort Globals :=
  let retention := lookupRetention pol g.companyId
  let dirTimeStampDateAsStr := g.year ++ "/" ++ g.month ++ "/" ++ g.date
  match timeParse dirTimeStampDateAsStr with
  | none => .error Abort.fatalDateParse
  | some dirTimeStampDat =>
    let diffDays := dateDiff currentDate dirTimeStampDat
    if diffDays > retention then
      .ok { g with dirsToBeDeleted := g.dirsToBeDeleted ++ [topDir] }
    else .ok g

/-- Lines 162-173: the name of the entry is stored according to the nesting level. -/
def recordName (nestingLevel : Nat) (dirName : String) (g : Globals) : Globals :=
  if nestingLevel = 1 then { g with companyId := dirName }
  else if nestingLevel = 3 then { g with year := dirName }
  else if nestingLevel = 4 then { g with month := dirName }
  else if nestingLevel = 5 then { g with date := dirName }
  else g

/-- A `for _, dirEntry := range dirs` loop whose body may end the run. -/
def rangeLoop (body : DirEntry → Globals → Except Abort Globals) :
    List DirEntry → Globals → Except Abort Globals
  | [], g => .ok g
  | dirEntry :: rest, g =>
    match body dirEntry g with
    | .error a => .error a
    | .ok g1 => rangeLoop body rest g1

/-- Lines 154-180, the body of the loop; `recurse` is the recursive call at line 180. -/
def loopBody (recurse : String → Nat → Globals → Except Abort Globals) (topDir : String)
    (nestingLevel : Nat) (dirEntry : DirEntry) (g : Globals) : Except Abort Globals :=
  let dirName := dirEntry.name
  match dirName.data with
  | [] => .error Abort.indexOutOfRange
  | c :: _ =>
    if c = '.' then .ok g
    else
      let nextFilePath := topDir ++ "/" ++ dirName
      recurse nextFilePath (nestingLevel + 1) (recordName nestingLevel dirName g)

/-- Lines 145-181: list `topDir` and loop over its entries. -/
def listAndLoop (fs : FileSystem) (recurse : String → Nat → Globals → Except Abort Globals)
    (topDir : String) (nestingLevel : Nat) (g : Globals) : Except Abort Globals :=
  match fs topDir with
  | none => .ok g
  | some dirs => rangeLoop (loopBody recurse topDir nestingLevel) dirs g

/-- The recursion of `determineFilesToBeDeletedHelper`, by the number of levels left before
`nestingLevel > 5` holds. -/
def walkLevels (fs : FileSystem) (pol : RetentionMap) (currentDate : Time) :
    Nat → String → Nat → Globals → Except Abort Globals
  | 0, topDir, _, g => evalTerminal pol currentDate topDir g
  | k + 1, topDir, nestingLevel, g =>
    listAndLoop fs (walkLevels fs pol currentDate k) topDir nestingLevel g

/-- Helper function which recursively walks down the directory structure.  The recursion ends
after `6 - nestingLevel` levels, when `nestingLevel > 5`. -/
def determineFilesToBeDeletedHelper (fs : FileSystem) (pol : RetentionMap) (currentDate : Time)
    (topDir : String) (nestingLevel : Nat) (g : Globals) : Except Abort Globals :=
  walkLevels fs pol currentDate (6 - nestingLevel) topDir nestingLevel g

/-- This function is responsible for walking down the given directory structure:
`determineFilesToBeDeletedHelper(topDir, 1)`. -/
def determineFilesToBeDeleted (fs : FileSystem) (pol : RetentionMap) (currentDate : Time)
    (topDir : String) (g : Globals) : Except Abort Globals :=
  determineFilesToBeDeletedHelper fs pol currentDate topDir 1 g

/-! ## Vocabulary of the statements -/

/-- Equality of outcomes is decidable. -/
instance decEqOutcome : DecidableEq (Except Abort Globals) := fun a b =>
  match a, b with
  | .ok x, .ok y =>
    if h : x = y then isTrue (by rw [h]) else isFalse (fun h1 => h (by cases h1; rfl))
  | .error x, .error y =>
    if h : x = y then isTrue (by rw [h]) else isFalse (fun h1 => h (by cases h1; rfl))
  | .ok _, .error _ => isFalse (fun h1 => by cases h1)
  | .error _, .ok _ => isFalse (fun h1 => by cases h1)

/-- The test `dirName[0] == '.'` of line 157 (for a non-empty name). -/
def hiddenName (name : String) : Bool :=
  match name.data with
  | [] => false
  | c :: _ => decide (c = '.')

/-- A name the loop descends into: not empty and not beginning with `.`. -/
def visibleName (name : String) : Bool :=
  match name.data with
  | [] => false
  | c :: _ => !decide (c = '.')

/-- The path built by line 175 along the entry names `names`, starting at `root`. -/
def joinPath (root : String) (names : List String) : String :=
  names.foldl (fun p n => p ++ "/" ++ n) root

/-- Directory `dir` can be listed and its listing has a visible entry called `name`. -/
def Visible (fs : FileSystem) (dir name : String) : Prop :=
  visibleName name = true ∧ ∃ dirs, fs dir = some dirs ∧ ∃ e ∈ dirs, e.name = name

/-- The chain of names `names` exists below `root`: every directory on the way can be listed and
every name is a visible entry of the listing of its parent. -/
def Reach (fs : FileSystem) (root : String) : List String → Prop
  | [] => True
  | n :: names => Visible fs root n ∧ Reach fs (root ++ "/" ++ n) names

/-- No entry name of any listing contains the path separator. -/
def NoSlash (fs : FileSystem) : Prop :=
  ∀ dir dirs, fs dir = some dirs → ∀ e ∈ dirs, '/' ∉ e.name.data

/-- No entry name of any listing is empty. -/
def NonEmptyNames (fs : FileSystem) : Prop :=
  ∀ dir dirs, fs dir = some dirs → ∀ e ∈ dirs, e.name.data ≠ []

/-- What a call of the helper at `nestingLevel` leaves untouched: the variables that are written
at smaller nesting levels have the same value in `g1` as in `g`. -/
def Preserves (nestingLevel : Nat) (g g1 : Globals) : Prop :=
  (2 ≤ nestingLevel → g1.companyId = g.companyId) ∧ (4 ≤ nestingLevel → g1.year = g.year) ∧
  (5 ≤ nestingLevel → g1.month = g.month) ∧ (6 ≤ nestingLevel → g1.date = g.date)

/-- The variables hold the names of the path `names` walked so far. -/
def Agree (names : List String) (g : Globals) : Prop :=
  (0 < names.length → g.companyId = names.getD 0 "") ∧
  (2 < names.length → g.year = names.getD 2 "") ∧
  (3 < names.length → g.month = names.getD 3 "") ∧
  (4 < names.length → g.date = names.getD 4 "")

/-- What a run does at the leaves, in order: a terminal evaluation of a path, with the names of the
path at depths 1, 3, 4 and 5, or the panic on an empty name. -/
inductive Event where
  | evaluate (topDir companyId year month date : String)
  | emptyName
deriving DecidableEq, Repr

/-- The leaves of the walk below `topDir` in depth-first order, read off the file system alone;
`names` are the entry names from the root down to `topDir`. -/
def events (fs : FileSystem) : Nat → String → List String → List Event
  | 0, topDir, names =>
    [Event.evaluate topDir (names.getD 0 "") (names.getD 2 "") (names.getD 3 "")
      (names.getD 4 "")]
  | k + 1, topDir, names =>
    match fs topDir with
    | none => []
    | some dirs =>
      dirs.flatMap (fun dirEntry =>
        match dirEntry.name.data with
        | [] => [Event.emptyName]
        | c :: _ =>
          if c = '.' then []
          else events fs k (topDir ++ "/" ++ dirEntry.name) (names ++ [dirEntry.name]))

/-- Run the leaves in order on the list of expired directories. -/
def runEvents (pol : RetentionMap) (currentDate : Time) :
    List Event → List String → Except Abort (List String)
  | [], dirs => .ok dirs
  | Event.emptyName :: _, _ => .error Abort.indexOutOfRange
  | Event.evaluate topDir companyId year month date :: rest, dirs =>
    match evalTerminal pol currentDate topDir ⟨companyId, year, month, date, dirs⟩ with
    | .error a => .error a
    | .ok g => runEvents pol currentDate rest g.dirsToBeDeleted

/-- The list of expired directories a call leaves behind, or the way it aborts. -/
def dirsOf (r : Except Abort Globals) : Except Abort (List String) :=
  match r with
  | .error a => .error a
  | .ok g => .ok g.dirsToBeDeleted

/-- The date of a terminal evaluation parses; the panic on an empty name does not count. -/
def Event.parses : Event → Bool
  | Event.evaluate _ _ year month date => (timeParse (year ++ "/" ++ month ++ "/" ++ date)).isSome
  | Event.emptyName => false

/-- The path a terminal evaluation appends: its own path when the date parses and the age
exceeds the retention of the tenant. -/
def Event.expiredPath (pol : RetentionMap) (currentDate : Time) : Event → Option String
  | Event.evaluate topDir companyId year month date =>
    match timeParse (year ++ "/" ++ month ++ "/" ++ date) with
    | none => none
    | some dirTimeStampDat =>
      if dateDiff currentDate dirTimeStampDat > lookupRetention pol companyId then some topDir
      else none
  | Event.emptyName => none

/-- The names of the entries of `dir` that the loop does not skip, in listing order (none when
`dir` cannot be listed). -/
def shownNames (fs : FileSystem) (dir : String) : List String :=
  (((fs dir).getD []).filter (fun e => !hiddenName e.name)).map (fun e => e.name)

/-- The moments at which the helper is called: `Invoked fs pol now root g0 names g` says that in
the run of `determineFilesToBeDeleted` on `root` started with the variables `g0`, the helper is
called with `topDir = joinPath root names` and `nestingLevel = names.length + 1` when the
variables are `g`.  The first call is the one of line 106; a call at a nesting level of at most 5
that lists its directory calls the helper at line 180 for each entry the loop does not skip, after
the iterations for the entries before it have returned. -/
inductive Invoked (fs : FileSystem) (pol : RetentionMap) (now : Time) (root : String)
    (g0 : Globals) : List String → Globals → Prop where
  | start : Invoked fs pol now root g0 [] g0
  | child (names : List String) (g gi : Globals) (before after : List DirEntry) (e : DirEntry) :
      Invoked fs pol now root g0 names g →
      names.length + 1 ≤ 5 →
      fs (joinPath root names) = some (before ++ e :: after) →
      rangeLoop (loopBody (determineFilesToBeDeletedHelper fs pol now) (joinPath root names)
        (names.length + 1)) before g = .ok gi →
      visibleName e.name = true →
      Invoked fs pol now root g0 (names ++ [e.name]) (recordName (names.length + 1) e.name gi)

/-- Each of `companyId, year, month, date` still has its value of `g0` or holds a name that does
not begin with `.`. -/
def NoHiddenStored (g0 g : Globals) : Prop :=
  (g.companyId = g0.companyId ∨ hiddenName g.companyId = false) ∧
  (g.year = g0.year ∨ hiddenName g.year = false) ∧
  (g.month = g0.month ∨ hiddenName g.month = false) ∧
  (g.date = g0.date ∨ hiddenName g.date = false)

/-- The file system with the hidden entries taken out of every listing. -/
def removeHidden (fs : FileSystem) : FileSystem := fun p =>
  (fs p).map (List.filter (fun e => !hiddenName e.name))

/-- The rational number a mantissa and an exponent stand for. -/
def valNat (p : Nat × Int) : ℚ := (p.1 : ℚ) * (2 : ℚ) ^ p.2

/-! ## Example inputs -/

/-- The file system in which exactly the directories of a finite table can be listed. -/
def tableFs (table : List (String × List DirEntry)) : FileSystem := fun p => table.lookup p

/-- A data directory with two tenants: `acme` has the day directories 2020/1/15 and 2024/1/1 and a
regular file `16` and a hidden directory `.tmp` next to the day directory `15`; `zeta` has the day
directory 2023/12/22; the root also holds a hidden directory. -/
def exampleFs : FileSystem := tableFs
  [("/data", [⟨".snapshot", true⟩, ⟨"acme", true⟩, ⟨"zeta", true⟩]),
   ("/data/acme", [⟨"dev1", true⟩]),
   ("/data/acme/dev1", [⟨"2020", true⟩, ⟨"2024", true⟩]),
   ("/data/acme/dev1/2020", [⟨"1", true⟩]),
   ("/data/acme/dev1/2020/1", [⟨".tmp", true⟩, ⟨"15", true⟩, ⟨"16", false⟩]),
   ("/data/acme/dev1/2020/1/15", [⟨"23", true⟩]),
   ("/data/acme/dev1/2024", [⟨"1", true⟩]),
   ("/data/acme/dev1/2024/1", [⟨"1", true⟩]),
   ("/data/zeta", [⟨"dev9", true⟩]),
   ("/data/zeta/dev9", [⟨"2023", true⟩]),
   ("/data/zeta/dev9/2023", [⟨"12", true⟩]),
   ("/data/zeta/dev9/2023/12", [⟨"22", true⟩])]

/-- The policy `{"acme": 30, "default": 7}`. -/
def examplePolicy : RetentionMap := fun k =>
  if k = "acme" then some 30 else if k = "default" then some 7 else none

/-- The reference time 2024-01-01 00:00:00 UTC. -/
def exampleNow : Time := Date 2024 1 1

/-- The variables after the run on `exampleFs` from `initGlobals`. -/
def exampleEnd : Globals :=
  ⟨"zeta", "2023", "12", "22",
    ["/data/acme/dev1/2020/1/15", "/data/acme/dev1/2020/1/16", "/data/zeta/dev9/2023/12/22"]⟩

/-- A data directory whose listing of 2020/1 holds the expired day `15` and then the malformed
day name `1x`. -/
def malformedFs : FileSystem := tableFs
  [("/data", [⟨"acme", true⟩]),
   ("/data/acme", [⟨"dev1", true⟩]),
   ("/data/acme/dev1", [⟨"2020", true⟩]),
   ("/data/acme/dev1/2020", [⟨"1", true⟩]),
   ("/data/acme/dev1/2020/1", [⟨"15", true⟩, ⟨"1x", true⟩])]

/-- The file system `exampleFs` in which the day directory `/data/acme/dev1/2020/1/15` cannot be
listed. -/
def exampleFsSealed : FileSystem := fun p =>
  if p = "/data/acme/dev1/2020/1/15" then none else exampleFs p

/-- The file system `exampleFs` in which the directory `/data/zeta/dev9` cannot be listed. -/
def exampleFsDenied : FileSystem := fun p =>
  if p = "/data/zeta/dev9" then none else exampleFs p

/-- The variables after the run on `exampleFsDenied` from `initGlobals`. -/
def exampleEndDenied : Globals :=
  ⟨"zeta", "2024", "1", "1", ["/data/acme/dev1/2020/1/15", "/data/acme/dev1/2020/1/16"]⟩

/-- A data directory whose only tenant has no device directory. -/
def shallowFs : FileSystem := tableFs
  [("/data", [⟨"acme", true⟩, ⟨".cache", true⟩]),
   ("/data/acme", []),
   ("/data/.cache", [⟨"a", true⟩])]

/-- The variables when the walk on `exampleFs` has left the tenant `acme`. -/
def exampleAfterAcme : Globals :=
  ⟨"acme", "2024", "1", "1", ["/data/acme/dev1/2020/1/15", "/data/acme/dev1/2020/1/16"]⟩

/-- The variables when the walk on `exampleFs` evaluates `/data/zeta/dev9/2023/12/22`. -/
def exampleAtZeta : Globals :=
  ⟨"zeta", "2023", "12", "22", ["/data/acme/dev1/2020/1/15", "/data/acme/dev1/2020/1/16"]⟩

/-- The instant 2024-06-19 23:59:59.999999999 UTC, one nanosecond before 171 days have passed
since `exampleNow`. -/
def boundaryNow : Time := ⟨exampleNow.unixNano + 171 * 24 * Hour - 1⟩

/-- The policy `{"default": 7}`. -/
def defaultOnlyPolicy : RetentionMap := fun k => if k = "default" then some 7 else none

/-- The path of a terminal evaluation. -/
def Event.path : Event → Option String
  | Event.evaluate topDir _ _ _ _ => some topDir
  | Event.emptyName => none

/-- The entries of every listing have pairwise distinct names. -/
def DistinctNames (fs : FileSystem) : Prop :=
  ∀ dir dirs, fs dir = some dirs → (dirs.map (fun e => e.name)).Nodup

/-- The names of the entries of `dir` the loop descends into, in listing order (none when `dir`
cannot be listed). -/
def visibleNames (fs : FileSystem) (dir : String) : List String :=
  (((fs dir).getD []).map (fun e => e.name)).filter visibleName

/-- The expiry test for a tenant and a day directory: the date parses and the age exceeds the
retention. -/
def expiredAt (pol : RetentionMap) (currentDate : Time) (companyId year month date : String) :
    Bool :=
  match timeParse (year ++ "/" ++ month ++ "/" ++ date) with
  | none => false
  | some dirTimeStampDat =>
    decide (dateDiff currentDate dirTimeStampDat > lookupRetention pol companyId)

/-- The expired paths `k` levels below `topDir` in depth-first order, the entries of each directory
taken in the order of its listing; `names` are the entry names from the root down to `topDir`. -/
def expiredBelow (fs : FileSystem) (pol : RetentionMap) (currentDate : Time) :
    Nat → String → List String → List String
  | 0, topDir, names =>
    if expiredAt pol currentDate (names.getD 0 "") (names.getD 2 "") (names.getD 3 "")
        (names.getD 4 "") = true then [topDir]
    else []
  | k + 1, topDir, names =>
    (visibleNames fs topDir).flatMap
      (fun n => expiredBelow fs pol currentDate k (topDir ++ "/" ++ n) (names ++ [n]))

/-- The policy without any key (a nil or empty map). -/
def emptyPolicy : RetentionMap := fun _ => none

/-- A data directory with the single day directory 2023/12/31. -/
def recentFs : FileSystem := tableFs
  [("/data", [⟨"acme", true⟩]),
   ("/data/acme", [⟨"dev1", true⟩]),
   ("/data/acme/dev1", [⟨"2023", true⟩]),
   ("/data/acme/dev1/2023", [⟨"12", true⟩]),
   ("/data/acme/dev1/2023/12", [⟨"31", true⟩])]

/-- The variables after the run on `recentFs` from `initGlobals` at `exampleNow` under
`emptyPolicy`. -/
def recentEnd : Globals := ⟨"acme", "2023", "12", "31", ["/data/acme/dev1/2023/12/31"]⟩

/-- The variables after the run on `exampleFs` from `initGlobals` at `boundaryNow` under
`examplePolicy`. -/
def exampleEndLater : Globals :=
  ⟨"zeta", "2023", "12", "22",
    ["/data/acme/dev1/2020/1/15", "/data/acme/dev1/2020/1/16", "/data/acme/dev1/2024/1/1",
      "/data/zeta/dev9/2023/12/22"]⟩

/-- A data directory with the tenants `high` and `low`, each with the day directory
2023/12/22. -/
def twoTenantFs : FileSystem := tableFs
  [("/data", [⟨"high", true⟩, ⟨"low", true⟩]),
   ("/data/high", [⟨"dev1", true⟩]),
   ("/data/high/dev1", [⟨"2023", true⟩]),
   ("/data/high/dev1/2023", [⟨"12", true⟩]),
   ("/data/high/dev1/2023/12", [⟨"22", true⟩]),
   ("/data/low", [⟨"dev1", true⟩]),
   ("/data/low/dev1", [⟨"2023", true⟩]),
   ("/data/low/dev1/2023", [⟨"12", true⟩]),
   ("/data/low/dev1/2023/12", [⟨"22", true⟩])]

/-- The policy `{"low": 1, "default": 365}`. -/
def lowHighPolicy : RetentionMap := fun k =>
  if k = "low" then some 1 else if k = "default" then some 365 else none

/-- The variables after the run on `twoTenantFs` from `initGlobals` at `exampleNow` under
`lowHighPolicy`. -/
def twoTenantEnd : Globals := ⟨"low", "2023", "12", "22", ["/data/low/dev1/2023/12/22"]⟩

/-! ## The walk: loops, frame, and the refinement by the list of leaves -/

/-- The recursive equation of `determineFilesToBeDeletedHelper`, in the shape of the source. -/
theorem determineFilesToBeDeletedHelper_eq (fs : FileSystem) (pol : RetentionMap)
    (currentDate : Time) (topDir : String) (nestingLevel : Nat) (g : Globals) :
    determineFilesToBeDeletedHelper fs pol currentDate topDir nestingLevel g =
      if nestingLevel > 5 then evalTerminal pol currentDate topDir g
      else listAndLoop fs (determineFilesToBeDeletedHelper fs pol currentDate)
        topDir nestingLevel g := by
  unfold determineFilesToBeDeletedHelper
  by_cases h : nestingLevel > 5
  · have h0 : 6 - nestingLevel = 0 := by omega
    simp [h, h0, walkLevels]
  · obtain ⟨k, hk⟩ : ∃ k, 6 - nestingLevel = k + 1 := ⟨5 - nestingLevel, by omega⟩
    have hk2 : 6 - (nestingLevel + 1) = k := by omega
    simp only [h, hk, walkLevels, if_false]
    unfold listAndLoop
    cases fs topDir with
    | none => rfl
    | some dirs =>
      simp only
      congr 1
      funext dirEntry g1
      unfold loopBody
      simp only [hk2]

theorem rangeLoop_append (body : DirEntry → Globals → Except Abort Globals)
    (xs ys : List DirEntry) (g : Globals) :
    rangeLoop body (xs ++ ys) g =
      match rangeLoop body xs g with
      | .error a => .error a
      | .ok g1 => rangeLoop body ys g1 := by
  induction xs generalizing g with
  | nil => rfl
  | cons x xs ih =>
    simp only [List.cons_append, rangeLoop]
    cases body x g with
    | error a => rfl
    | ok g1 => exact ih g1

theorem rangeLoop_congr {body body1 : DirEntry → Globals → Except Abort Globals}
    {dirs : List DirEntry} (h : ∀ e ∈ dirs, ∀ g, body e g = body1 e g) (g : Globals) :
    rangeLoop body dirs g = rangeLoop body1 dirs g := by
  induction dirs generalizing g with
  | nil => rfl
  | cons x xs ih =>
    simp only [rangeLoop]
    rw [h x (List.mem_cons_self _ _) g]
    cases body1 x g with
    | error a => rfl
    | ok g1 => exact ih (fun e he => h e (List.mem_cons_of_mem _ he)) g1

/-- An invariant of the loop body is an invariant of the loop. -/
theorem rangeLoop_invariant {body : DirEntry → Globals → Except Abort Globals}
    (P : Globals → Prop) {dirs : List DirEntry}
    (h : ∀ e ∈ dirs, ∀ g g1, P g → body e g = .ok g1 → P g1) {g g1 : Globals} (hg : P g)
    (hrun : rangeLoop body dirs g = .ok g1) : P g1 := by
  induction dirs generalizing g with
  | nil =>
    simp only [rangeLoop] at hrun
    cases hrun
    exact hg
  | cons x xs ih =>
    simp only [rangeLoop] at hrun
    cases hb : body x g with
    | error a => rw [hb] at hrun; cases hrun
    | ok g2 =>
      rw [hb] at hrun
      exact ih (fun e he => h e (List.mem_cons_of_mem _ he))
        (h x (List.mem_cons_self _ _) g g2 hg hb) hrun

theorem Preserves.refl (n : Nat) (g : Globals) : Preserves n g g :=
  ⟨fun _ => rfl, fun _ => rfl, fun _ => rfl, fun _ => rfl⟩

theorem Preserves.trans {n : Nat} {g g1 g2 : Globals} (h1 : Preserves n g g1)
    (h2 : Preserves n g1 g2) : Preserves n g g2 :=
  ⟨fun h => (h2.1 h).trans (h1.1 h), fun h => (h2.2.1 h).trans (h1.2.1 h),
    fun h => (h2.2.2.1 h).trans (h1.2.2.1 h), fun h => (h2.2.2.2 h).trans (h1.2.2.2 h)⟩

theorem Preserves.of_succ {n : Nat} {g g1 : Globals} (h : Preserves (n + 1) g g1) :
    Preserves n g g1 :=
  ⟨fun h1 => h.1 (by omega), fun h1 => h.2.1 (by omega), fun h1 => h.2.2.1 (by omega),
    fun h1 => h.2.2.2 (by omega)⟩

theorem preserves_recordName (n : Nat) (name : String) (g : Globals) :
    Preserves n g (recordName n name g) := by
  unfold recordName Preserves
  refine ⟨fun h => ?_, fun h => ?_, fun h => ?_, fun h => ?_⟩ <;> split_ifs <;> first | rfl | omega

theorem recordName_dirs (n : Nat) (name : String) (g : Globals) :
    (recordName n name g).dirsToBeDeleted = g.dirsToBeDeleted := by
  unfold recordName
  split_ifs <;> rfl

theorem evalTerminal_preserves {pol : RetentionMap} {now : Time} {topDir : String}
    {g g1 : Globals} (n : Nat) (h : evalTerminal pol now topDir g = .ok g1) :
    Preserves n g g1 := by
  unfold evalTerminal at h
  simp only at h
  split at h
  · cases h
  · split_ifs at h <;> cases h <;> exact ⟨fun _ => rfl, fun _ => rfl, fun _ => rfl, fun _ => rfl⟩

/-- Frame of a call at `nestingLevel`: the variables written at smaller levels keep their
values. -/
theorem walkLevels_preserves (fs : FileSystem) (pol : RetentionMap) (now : Time) (k : Nat) :
    ∀ (topDir : String) (n : Nat) (g g1 : Globals),
      walkLevels fs pol now k topDir n g = .ok g1 → Preserves n g g1 := by
  induction k with
  | zero =>
    intro topDir n g g1 h
    exact evalTerminal_preserves n h
  | succ k ih =>
    intro topDir n g g1 h
    simp only [walkLevels, listAndLoop] at h
    cases hfs : fs topDir with
    | none =>
      rw [hfs] at h
      cases h
      exact Preserves.refl n g
    | some dirs =>
      rw [hfs] at h
      simp only at h
      refine rangeLoop_invariant (fun x => Preserves n g x) ?_ (Preserves.refl n g) h
      intro e _ gi gj hgi hbody
      unfold loopBody at hbody
      simp only at hbody
      split at hbody
      · cases hbody
      · split_ifs at hbody
        · cases hbody
          exact hgi
        · exact (hgi.trans (preserves_recordName n e.name gi)).trans (ih _ _ _ _ hbody).of_succ

theorem Agree.of_preserves {names : List String} {g g1 : Globals} (h : Agree names g)
    (hp : Preserves (names.length + 1) g g1) : Agree names g1 :=
  ⟨fun h1 => (hp.1 (by omega)).trans (h.1 h1), fun h1 => (hp.2.1 (by omega)).trans (h.2.1 h1),
    fun h1 => (hp.2.2.1 (by omega)).trans (h.2.2.1 h1),
    fun h1 => (hp.2.2.2 (by omega)).trans (h.2.2.2 h1)⟩

theorem getD_snoc_lt (names : List String) (x : String) (i : Nat) (h : i < names.length) :
    (names ++ [x]).getD i "" = names.getD i "" :=
  List.getD_append names [x] "" i h

theorem getD_snoc_eq (names : List String) (x : String) :
    (names ++ [x]).getD names.length "" = x := by
  rw [List.getD_append_right names [x] "" names.length (le_refl _)]
  simp

theorem Agree.snoc {names : List String} {g : Globals} (h : Agree names g) (x : String) :
    Agree (names ++ [x]) (recordName (names.length + 1) x g) := by
  have hp := preserves_recordName (names.length + 1) x g
  have hlen : (names ++ [x]).length = names.length + 1 := by simp
  refine ⟨fun _ => ?_, fun _ => ?_, fun _ => ?_, fun _ => ?_⟩
  · rcases Nat.eq_zero_or_pos names.length with h0 | h0
    · have := getD_snoc_eq names x
      rw [h0] at this
      rw [this, h0]
      simp [recordName]
    · rw [getD_snoc_lt names x 0 h0, hp.1 (by omega)]
      exact h.1 h0
  · rcases Nat.lt_or_ge 2 names.length with h0 | h0
    · rw [getD_snoc_lt names x 2 h0, hp.2.1 (by omega)]
      exact h.2.1 h0
    · have h2 : names.length = 2 := by omega
      have := getD_snoc_eq names x
      rw [h2] at this
      rw [this, h2]
      simp [recordName]
  · rcases Nat.lt_or_ge 3 names.length with h0 | h0
    · rw [getD_snoc_lt names x 3 h0, hp.2.2.1 (by omega)]
      exact h.2.2.1 h0
    · have h2 : names.length = 3 := by omega
      have := getD_snoc_eq names x
      rw [h2] at this
      rw [this, h2]
      simp [recordName]
  · rcases Nat.lt_or_ge 4 names.length with h0 | h0
    · rw [getD_snoc_lt names x 4 h0, hp.2.2.2 (by omega)]
      exact h.2.2.2 h0
    · have h2 : names.length = 4 := by omega
      have := getD_snoc_eq names x
      rw [h2] at this
      rw [this, h2]
      simp [recordName]

theorem Agree.nil (g : Globals) : Agree [] g :=
  ⟨fun h => absurd h (by simp), fun h => absurd h (by simp), fun h => absurd h (by simp),
    fun h => absurd h (by simp)⟩

theorem runEvents_append (pol : RetentionMap) (now : Time) (xs ys : List Event)
    (dirs : List String) :
    runEvents pol now (xs ++ ys) dirs =
      match runEvents pol now xs dirs with
      | .error a => .error a
      | .ok dirs1 => runEvents pol now ys dirs1 := by
  induction xs generalizing dirs with
  | nil => rfl
  | cons x xs ih =>
    cases x with
    | emptyName => rfl
    | evaluate p c y m d =>
      simp only [List.cons_append, runEvents]
      cases evalTerminal pol now p ⟨c, y, m, d, dirs⟩ with
      | error a => rfl
      | ok g1 => exact ih g1.dirsToBeDeleted

/-- The walk with its shared variables does what the leaves of the file system, each evaluated
with the names of its own path, do in depth-first order. -/
theorem walkLevels_events (fs : FileSystem) (pol : RetentionMap) (now : Time) (k : Nat) :
    ∀ (topDir : String) (names : List String) (g : Globals), Agree names g →
      5 ≤ names.length + k →
      dirsOf (walkLevels fs pol now k topDir (names.length + 1) g) =
        runEvents pol now (events fs k topDir names) g.dirsToBeDeleted := by
  induction k with
  | zero =>
    intro topDir names g hg hlen
    have hg' : g = ⟨names.getD 0 "", names.getD 2 "", names.getD 3 "", names.getD 4 "",
        g.dirsToBeDeleted⟩ := by
      cases g
      simp only [Globals.mk.injEq, and_true]
      exact ⟨hg.1 (by omega), hg.2.1 (by omega), hg.2.2.1 (by omega), hg.2.2.2 (by omega)⟩
    simp only [walkLevels, events, runEvents]
    rw [← hg']
    cases evalTerminal pol now topDir g <;> rfl
  | succ k ih =>
    intro topDir names g hg hlen
    simp only [walkLevels, listAndLoop, events]
    cases fs topDir with
    | none => rfl
    | some dirs =>
      simp only
      induction dirs generalizing g with
      | nil => rfl
      | cons e es ihl =>
        simp only [rangeLoop, List.flatMap_cons, runEvents_append]
        unfold loopBody
        simp only
        cases hname : e.name.data with
        | nil => rfl
        | cons c cs =>
          simp only
          by_cases hc : c = '.'
          · simp only [hc, if_true, runEvents]
            exact ihl g hg
          · simp only [hc, if_false]
            have hlen1 : (names ++ [e.name]).length = names.length + 1 := by simp
            have ih1 := ih (topDir ++ "/" ++ e.name) (names ++ [e.name])
              (recordName (names.length + 1) e.name g) (hg.snoc e.name) (by omega)
            rw [hlen1, recordName_dirs] at ih1
            rw [← ih1]
            cases hw : walkLevels fs pol now k (topDir ++ "/" ++ e.name) (names.length + 1 + 1)
                (recordName (names.length + 1) e.name g) with
            | error a => rfl
            | ok g1 =>
              simp only [dirsOf]
              have hp := walkLevels_preserves fs pol now k _ _ _ _ hw
              exact ihl g1 (hg.of_preserves
                ((preserves_recordName (names.length + 1) e.name g).trans hp.of_succ))

theorem determineFilesToBeDeleted_events (fs : FileSystem) (pol : RetentionMap) (now : Time)
    (root : String) (g : Globals) :
    dirsOf (determineFilesToBeDeleted fs pol now root g) =
      runEvents pol now (events fs 5 root []) g.dirsToBeDeleted :=
  walkLevels_events fs pol now 5 root [] g (Agree.nil g) (by simp)

theorem joinPath_cons (root n : String) (names : List String) :
    joinPath root (n :: names) = joinPath (root ++ "/" ++ n) names := rfl

theorem joinPath_snoc (root : String) (names : List String) (n : String) :
    joinPath root (names ++ [n]) = joinPath root names ++ "/" ++ n := by
  simp [joinPath, List.foldl_append]

theorem visibleName_iff (name : String) :
    visibleName name = true ↔ ∃ c cs, name.data = c :: cs ∧ c ≠ '.' := by
  unfold visibleName
  cases h : name.data with
  | nil => simp
  | cons c cs => simp

/-- The terminal evaluations among the leaves are the chains of `k` visible names. -/
theorem evaluate_mem_events (fs : FileSystem) (k : Nat) :
    ∀ (topDir : String) (names : List String) (q c y m d : String),
      Event.evaluate q c y m d ∈ events fs k topDir names ↔
        ∃ more : List String, more.length = k ∧ Reach fs topDir more ∧
          q = joinPath topDir more ∧ c = (names ++ more).getD 0 "" ∧
          y = (names ++ more).getD 2 "" ∧ m = (names ++ more).getD 3 "" ∧
          d = (names ++ more).getD 4 "" := by
  induction k with
  | zero =>
    intro topDir names q c y m d
    simp only [events, List.mem_singleton, Event.evaluate.injEq]
    constructor
    · rintro ⟨rfl, rfl, rfl, rfl, rfl⟩
      exact ⟨[], rfl, trivial, rfl, by simp⟩
    · rintro ⟨more, hlen, -, hq, hc, hy, hm, hd⟩
      have : more = [] := List.length_eq_zero.mp hlen
      subst this
      simp only [List.append_nil] at hc hy hm hd
      exact ⟨hq, hc, hy, hm, hd⟩
  | succ k ih =>
    intro topDir names q c y m d
    simp only [events]
    constructor
    · intro h
      cases hfs : fs topDir with
      | none => rw [hfs] at h; simp at h
      | some dirs =>
        rw [hfs] at h
        simp only [List.mem_flatMap] at h
        obtain ⟨e, he, hmem⟩ := h
        cases hname : e.name.data with
        | nil => rw [hname] at hmem; simp at hmem
        | cons ch cs =>
          rw [hname] at hmem
          simp only at hmem
          by_cases hc : ch = '.'
          · simp [hc] at hmem
          · simp only [hc, if_false] at hmem
            obtain ⟨more, hlen, hreach, hq, h0, h2, h3, h4⟩ := (ih _ _ _ _ _ _ _).mp hmem
            refine ⟨e.name :: more, by simp [hlen], ⟨⟨?_, dirs, hfs, e, he, rfl⟩, hreach⟩, hq, ?_⟩
            · exact (visibleName_iff _).mpr ⟨ch, cs, hname, hc⟩
            · have happ : names ++ [e.name] ++ more = names ++ e.name :: more := by simp
              rw [happ] at h0 h2 h3 h4
              exact ⟨h0, h2, h3, h4⟩
    · rintro ⟨more, hlen, hreach, hq, h0, h2, h3, h4⟩
      cases more with
      | nil => simp at hlen
      | cons n more =>
        obtain ⟨⟨hvis, dirs, hfs, e, he, hen⟩, hreach⟩ := hreach
        subst hen
        obtain ⟨ch, cs, hname, hc⟩ := (visibleName_iff _).mp hvis
        rw [hfs]
        simp only [List.mem_flatMap]
        refine ⟨e, he, ?_⟩
        rw [hname]
        simp only [hc, if_false]
        have happ : names ++ [e.name] ++ more = names ++ e.name :: more := by simp
        refine (ih _ _ _ _ _ _ _).mpr ⟨more, by simpa using hlen, hreach, hq, ?_⟩
        rw [happ]
        exact ⟨h0, h2, h3, h4⟩

theorem emptyName_not_mem_events {fs : FileSystem} (hfs : NonEmptyNames fs) (k : Nat) :
    ∀ (topDir : String) (names : List String), Event.emptyName ∉ events fs k topDir names := by
  induction k with
  | zero =>
    intro topDir names
    simp [events]
  | succ k ih =>
    intro topDir names h
    simp only [events] at h
    cases hl : fs topDir with
    | none => rw [hl] at h; simp at h
    | some dirs =>
      rw [hl] at h
      simp only [List.mem_flatMap] at h
      obtain ⟨e, he, hmem⟩ := h
      cases hname : e.name.data with
      | nil => exact hfs topDir dirs hl e he hname
      | cons ch cs =>
        rw [hname] at hmem
        simp only at hmem
        split_ifs at hmem
        · simp at hmem
        · exact ih _ _ hmem

theorem runEvents_ok (pol : RetentionMap) (now : Time) (evs : List Event)
    (h : ∀ ev ∈ evs, ev.parses = true) (dirs : List String) :
    runEvents pol now evs dirs = .ok (dirs ++ evs.filterMap (Event.expiredPath pol now)) := by
  induction evs generalizing dirs with
  | nil => simp [runEvents]
  | cons ev evs ih =>
    have hev := h ev (List.mem_cons_self _ _)
    have ih1 := ih (fun x hx => h x (List.mem_cons_of_mem _ hx))
    cases ev with
    | emptyName => simp [Event.parses] at hev
    | evaluate p c y m d =>
      simp only [Event.parses, Option.isSome_iff_exists] at hev
      obtain ⟨dt, hdt⟩ := hev
      simp only [runEvents, evalTerminal, hdt, List.filterMap_cons, Event.expiredPath]
      by_cases hexp : dateDiff now dt > lookupRetention pol c
      · simp only [hexp, if_true]
        rw [ih1]
        simp
      · simp only [hexp, if_false]
        rw [ih1]

theorem runEvents_error (pol : RetentionMap) (now : Time) (evs : List Event) (ev : Event)
    (hmem : ev ∈ evs) (hev : ev.parses = false) (dirs : List String) :
    ∃ a, runEvents pol now evs dirs = .error a := by
  induction evs generalizing dirs with
  | nil => simp at hmem
  | cons x evs ih =>
    cases x with
    | emptyName => exact ⟨_, rfl⟩
    | evaluate p c y m d =>
      simp only [runEvents]
      cases hx : evalTerminal pol now p ⟨c, y, m, d, dirs⟩ with
      | error a => exact ⟨a, rfl⟩
      | ok g1 =>
        rcases List.mem_cons.mp hmem with heq | hmem1
        · subst heq
          have hnone : timeParse (y ++ "/" ++ m ++ "/" ++ d) = none := by
            cases hp : timeParse (y ++ "/" ++ m ++ "/" ++ d) with
            | none => rfl
            | some dt => simp [Event.parses, hp] at hev
          simp [evalTerminal, hnone] at hx
        · exact ih hmem1 g1.dirsToBeDeleted

theorem runEvents_parses {pol : RetentionMap} {now : Time} {evs : List Event}
    {dirs r : List String} (h : runEvents pol now evs dirs = .ok r) :
    ∀ ev ∈ evs, ev.parses = true := by
  intro ev hmem
  by_contra hne
  obtain ⟨a, ha⟩ := runEvents_error pol now evs ev hmem (by simpa using hne) dirs
  rw [ha] at h
  cases h

theorem runEvents_error_kind {pol : RetentionMap} {now : Time} {evs : List Event}
    (hne : Event.emptyName ∉ evs) {dirs : List String} {a : Abort}
    (h : runEvents pol now evs dirs = .error a) : a = Abort.fatalDateParse := by
  induction evs generalizing dirs with
  | nil => simp [runEvents] at h
  | cons x evs ih =>
    cases x with
    | emptyName => simp at hne
    | evaluate p c y m d =>
      simp only [runEvents] at h
      cases hx : evalTerminal pol now p ⟨c, y, m, d, dirs⟩ with
      | error b =>
        rw [hx] at h
        simp only [evalTerminal] at hx
        split at hx
        · cases hx; cases h; rfl
        · split_ifs at hx
      | ok g1 =>
        rw [hx] at h
        exact ih (fun hm => hne (List.mem_cons_of_mem _ hm)) h

theorem joinPath_data (root : String) (names : List String) :
    (joinPath root names).data = root.data ++ names.flatMap (fun n => '/' :: n.data) := by
  induction names generalizing root with
  | nil => simp [joinPath]
  | cons n names ih =>
    rw [joinPath_cons, ih]
    simp [String.data_append]

/-- A slash-free segment followed by a separator or the end is determined by the whole. -/
theorem segment_cancel : ∀ (a b r s : List Char), '/' ∉ a → '/' ∉ b →
    (r = [] ∨ ∃ r1, r = '/' :: r1) → (s = [] ∨ ∃ s1, s = '/' :: s1) →
    a ++ r = b ++ s → a = b ∧ r = s := by
  intro a
  induction a with
  | nil =>
    intro b r s _ hb hr hs h
    cases b with
    | nil => exact ⟨rfl, by simpa using h⟩
    | cons x b =>
      exfalso
      simp only [List.nil_append, List.cons_append] at h
      rcases hr with rfl | ⟨r1, rfl⟩
      · cases h
      · injection h with h1 _
        exact hb (by rw [h1]; exact List.mem_cons_self _ _)
  | cons x a ih =>
    intro b r s ha hb hr hs h
    cases b with
    | nil =>
      exfalso
      simp only [List.nil_append, List.cons_append] at h
      rcases hs with rfl | ⟨s1, rfl⟩
      · cases h
      · injection h with h1 _
        exact ha (by rw [← h1]; exact List.mem_cons_self _ _)
    | cons z b =>
      simp only [List.cons_append] at h
      injection h with h1 h2
      obtain ⟨hab, hrs⟩ := ih b r s (fun hm => ha (List.mem_cons_of_mem _ hm))
        (fun hm => hb (List.mem_cons_of_mem _ hm)) hr hs h2
      exact ⟨by rw [h1, hab], hrs⟩

theorem segments_injective : ∀ (xs ys : List String), (∀ n ∈ xs, '/' ∉ n.data) →
    (∀ n ∈ ys, '/' ∉ n.data) →
    xs.flatMap (fun n => '/' :: n.data) = ys.flatMap (fun n => '/' :: n.data) → xs = ys := by
  have hshape : ∀ zs : List String, zs.flatMap (fun n => '/' :: n.data) = [] ∨
      ∃ r1, zs.flatMap (fun n => '/' :: n.data) = '/' :: r1 := by
    intro zs
    cases zs with
    | nil => exact Or.inl rfl
    | cons z zs => exact Or.inr ⟨_, by simp [List.flatMap_cons]; rfl⟩
  intro xs
  induction xs with
  | nil =>
    intro ys _ _ h
    cases ys with
    | nil => rfl
    | cons y ys => simp [List.flatMap_cons] at h
  | cons x xs ih =>
    intro ys hx hy h
    cases ys with
    | nil => simp [List.flatMap_cons] at h
    | cons y ys =>
      simp only [List.flatMap_cons, List.cons_append, List.cons.injEq, true_and] at h
      obtain ⟨h1, h2⟩ := segment_cancel x.data y.data _ _ (hx x (List.mem_cons_self _ _))
        (hy y (List.mem_cons_self _ _)) (hshape xs) (hshape ys) h
      have hxy : x = y := String.ext h1
      rw [hxy, ih ys (fun n hn => hx n (List.mem_cons_of_mem _ hn))
        (fun n hn => hy n (List.mem_cons_of_mem _ hn)) h2]

/-- Paths built from slash-free names below the same root determine the names. -/
theorem joinPath_injective (root : String) (xs ys : List String)
    (hx : ∀ n ∈ xs, '/' ∉ n.data) (hy : ∀ n ∈ ys, '/' ∉ n.data)
    (h : joinPath root xs = joinPath root ys) : xs = ys := by
  have hd := congrArg String.data h
  rw [joinPath_data, joinPath_data] at hd
  exact segments_injective xs ys hx hy (List.append_cancel_left hd)

theorem Reach.noSlash {fs : FileSystem} (hns : NoSlash fs) :
    ∀ (names : List String) (root : String), Reach fs root names → ∀ n ∈ names, '/' ∉ n.data := by
  intro names
  induction names with
  | nil => intro root _ n hn; simp at hn
  | cons x names ih =>
    intro root h n hn
    obtain ⟨⟨_, dirs, hfs, e, he, hen⟩, hrest⟩ := h
    rcases List.mem_cons.mp hn with rfl | hn1
    · rw [← hen]
      exact hns root dirs hfs e he
    · exact ih _ hrest n hn1

/-- When the run returns, the directories it appended are the expired leaves, in order. -/
theorem determineFilesToBeDeleted_ok {fs : FileSystem} {pol : RetentionMap} {now : Time}
    {root : String} {g g1 : Globals} (h : determineFilesToBeDeleted fs pol now root g = .ok g1) :
    (∀ ev ∈ events fs 5 root [], ev.parses = true) ∧
      g1.dirsToBeDeleted =
        g.dirsToBeDeleted ++ (events fs 5 root []).filterMap (Event.expiredPath pol now) := by
  have hm := determineFilesToBeDeleted_events fs pol now root g
  rw [h] at hm
  simp only [dirsOf] at hm
  have hp := runEvents_parses hm.symm
  rw [runEvents_ok pol now _ hp] at hm
  injection hm with hm
  exact ⟨hp, hm⟩

theorem evaluate_mem_events_five (fs : FileSystem) (root q c y m d : String) :
    Event.evaluate q c y m d ∈ events fs 5 root [] ↔
      ∃ t dv, Reach fs root [t, dv, y, m, d] ∧ q = joinPath root [t, dv, y, m, d] ∧ c = t := by
  rw [evaluate_mem_events]
  constructor
  · rintro ⟨more, hlen, hreach, hq, hc, hy, hm, hd⟩
    match more, hlen with
    | [n1, n2, n3, n4, n5], _ =>
      simp only [List.nil_append, List.getD_cons_zero, List.getD_cons_succ] at hc hy hm hd
      subst hc hy hm hd
      exact ⟨_, n2, hreach, hq, rfl⟩
  · rintro ⟨t, dv, hreach, hq, hc⟩
    exact ⟨[t, dv, y, m, d], rfl, hreach, hq, by simp [hc]⟩

theorem mem_of_lookup {table : List (String × List DirEntry)} {dir : String}
    {dirs : List DirEntry} (h : table.lookup dir = some dirs) : (dir, dirs) ∈ table := by
  induction table with
  | nil => simp at h
  | cons x table ih =>
    obtain ⟨k, v⟩ := x
    simp only [List.lookup_cons] at h
    by_cases hk : dir = k
    · subst hk
      simp at h
      subst h
      exact List.mem_cons_self _ _
    · have hb : (dir == k) = false := by simpa using hk
      rw [hb] at h
      exact List.mem_cons_of_mem _ (ih h)

/-- A table without `/` in its entry names gives a file system without `/` in its names. -/
theorem tableFs_noSlash (table : List (String × List DirEntry))
    (h : ∀ x ∈ table, ∀ e ∈ x.2, '/' ∉ e.name.data) : NoSlash (tableFs table) :=
  fun dir dirs hl e he => h (dir, dirs) (mem_of_lookup hl) e he

theorem tableFs_nonEmptyNames (table : List (String × List DirEntry))
    (h : ∀ x ∈ table, ∀ e ∈ x.2, e.name.data ≠ []) : NonEmptyNames (tableFs table) :=
  fun dir dirs hl e he => h (dir, dirs) (mem_of_lookup hl) e he

theorem exampleFs_noSlash : NoSlash exampleFs :=
  tableFs_noSlash _ (by decide)

set_option maxRecDepth 100000 in
theorem exampleFs_run :
    determineFilesToBeDeleted exampleFs examplePolicy exampleNow "/data" initGlobals =
      .ok exampleEnd := by
  decide

theorem exampleFs_reach_acme_2020 : Reach exampleFs "/data" ["acme", "dev1", "2020", "1", "15"] :=
  ⟨⟨by decide, _, rfl, ⟨"acme", true⟩, by decide, rfl⟩,
    ⟨by decide, _, rfl, ⟨"dev1", true⟩, by decide, rfl⟩,
    ⟨by decide, _, rfl, ⟨"2020", true⟩, by decide, rfl⟩,
    ⟨by decide, _, rfl, ⟨"1", true⟩, by decide, rfl⟩,
    ⟨by decide, _, rfl, ⟨"15", true⟩, by decide, rfl⟩, trivial⟩

theorem exampleFs_reach_acme_2024 : Reach exampleFs "/data" ["acme", "dev1", "2024", "1", "1"] :=
  ⟨⟨by decide, _, rfl, ⟨"acme", true⟩, by decide, rfl⟩,
    ⟨by decide, _, rfl, ⟨"dev1", true⟩, by decide, rfl⟩,
    ⟨by decide, _, rfl, ⟨"2024", true⟩, by decide, rfl⟩,
    ⟨by decide, _, rfl, ⟨"1", true⟩, by decide, rfl⟩,
    ⟨by decide, _, rfl, ⟨"1", true⟩, by decide, rfl⟩, trivial⟩

set_option maxRecDepth 100000 in
theorem exampleFs_run_defaultOnly :
    determineFilesToBeDeleted exampleFs defaultOnlyPolicy exampleNow "/data" initGlobals =
      .ok exampleEnd := by
  decide

theorem loopBody_hidden (recurse : String → Nat → Globals → Except Abort Globals)
    (topDir : String) (n : Nat) (e : DirEntry) (g : Globals) (h : hiddenName e.name = true) :
    loopBody recurse topDir n e g = .ok g := by
  unfold hiddenName at h
  cases hd : e.name.data with
  | nil => rw [hd] at h; cases h
  | cons c cs =>
    rw [hd] at h
    have hc : c = '.' := by simpa using h
    simp only [loopBody, hd, hc, if_true]

theorem loopBody_name (recurse : String → Nat → Globals → Except Abort Globals)
    (topDir : String) (n : Nat) (e e1 : DirEntry) (g : Globals) (h : e.name = e1.name) :
    loopBody recurse topDir n e g = loopBody recurse topDir n e1 g := by
  unfold loopBody
  rw [h]

theorem rangeLoop_filter (recurse : String → Nat → Globals → Except Abort Globals)
    (topDir : String) (n : Nat) (dirs : List DirEntry) (g : Globals) :
    rangeLoop (loopBody recurse topDir n) dirs g =
      rangeLoop (loopBody recurse topDir n) (dirs.filter (fun e => !hiddenName e.name)) g := by
  induction dirs generalizing g with
  | nil => rfl
  | cons e es ih =>
    by_cases h : hiddenName e.name = true
    · simp only [rangeLoop, loopBody_hidden recurse topDir n e g h, List.filter_cons, h,
        Bool.not_true, Bool.false_eq_true, if_false]
      exact ih g
    · have h1 : (!hiddenName e.name) = true := by simpa using h
      simp only [rangeLoop, List.filter_cons, h1, if_true]
      cases loopBody recurse topDir n e g with
      | error a => rfl
      | ok g1 => exact ih g1

theorem rangeLoop_names (recurse : String → Nat → Globals → Except Abort Globals)
    (topDir : String) (n : Nat) :
    ∀ (dirs dirs1 : List DirEntry) (g : Globals),
      dirs.map (fun e => e.name) = dirs1.map (fun e => e.name) →
      rangeLoop (loopBody recurse topDir n) dirs g =
        rangeLoop (loopBody recurse topDir n) dirs1 g := by
  intro dirs
  induction dirs with
  | nil =>
    intro dirs1 g h
    cases dirs1 with
    | nil => rfl
    | cons e1 es1 => simp at h
  | cons e es ih =>
    intro dirs1 g h
    cases dirs1 with
    | nil => simp at h
    | cons e1 es1 =>
      simp only [List.map_cons, List.cons.injEq] at h
      simp only [rangeLoop, loopBody_name recurse topDir n e e1 g h.1]
      cases loopBody recurse topDir n e1 g with
      | error a => rfl
      | ok g1 => exact ih es1 g1 h.2

theorem mem_shownNames {fs : FileSystem} {dir name : String} (h : name ∈ shownNames fs dir) :
    hiddenName name = false ∧ ∃ dirs, fs dir = some dirs ∧ ∃ e ∈ dirs, e.name = name := by
  unfold shownNames at h
  simp only [List.mem_map, List.mem_filter] at h
  obtain ⟨e, ⟨he, hvis⟩, rfl⟩ := h
  cases hfs : fs dir with
  | none => rw [hfs] at he; simp at he
  | some dirs =>
    rw [hfs] at he
    exact ⟨by simpa using hvis, dirs, rfl, e, by simpa using he, rfl⟩

/-- The loop over a directory only depends on the names it does not skip. -/
theorem listAndLoop_congr (fs fs1 : FileSystem)
    (recurse recurse1 : String → Nat → Globals → Except Abort Globals) (topDir : String)
    (n : Nat) (g : Globals) (hnames : shownNames fs topDir = shownNames fs1 topDir)
    (hrec : ∀ name, Visible fs topDir name → ∀ g1,
      recurse (topDir ++ "/" ++ name) (n + 1) g1 = recurse1 (topDir ++ "/" ++ name) (n + 1) g1) :
    listAndLoop fs recurse topDir n g = listAndLoop fs1 recurse1 topDir n g := by
  have key : ∀ (f : FileSystem) (r : String → Nat → Globals → Except Abort Globals),
      listAndLoop f r topDir n g = rangeLoop (loopBody r topDir n)
        (((f topDir).getD []).filter (fun e => !hiddenName e.name)) g := by
    intro f r
    unfold listAndLoop
    cases f topDir with
    | none => rfl
    | some dirs => exact rangeLoop_filter r topDir n dirs g
  rw [key fs recurse, key fs1 recurse1]
  rw [← rangeLoop_names recurse1 topDir n _ _ g hnames]
  apply rangeLoop_congr
  intro e he g1
  unfold loopBody
  simp only
  cases hd : e.name.data with
  | nil => rfl
  | cons c cs =>
    simp only
    by_cases hc : c = '.'
    · simp [hc]
    · simp only [hc, if_false]
      have hmem : e.name ∈ shownNames fs topDir := by
        unfold shownNames
        exact List.mem_map.mpr ⟨e, he, rfl⟩
      exact hrec e.name ⟨(visibleName_iff _).mpr ⟨c, cs, hd, hc⟩, (mem_shownNames hmem).2⟩ _

/-- Two file systems that show the same names in every directory the walk lists give the same
run. -/
theorem walkLevels_congr (fs fs1 : FileSystem) (pol : RetentionMap) (now : Time) (k : Nat) :
    ∀ (topDir : String) (n : Nat) (g : Globals),
      (∀ names : List String, names.length < k → Reach fs topDir names →
        shownNames fs (joinPath topDir names) = shownNames fs1 (joinPath topDir names)) →
      walkLevels fs pol now k topDir n g = walkLevels fs1 pol now k topDir n g := by
  induction k with
  | zero => intro topDir n g _; rfl
  | succ k ih =>
    intro topDir n g h
    simp only [walkLevels]
    apply listAndLoop_congr
    · exact h [] (by simp) trivial
    · intro name hvis g1
      apply ih
      intro names hlen hreach
      exact h (name :: names) (by simpa using hlen) ⟨hvis, hreach⟩

theorem determineFilesToBeDeleted_congr (fs fs1 : FileSystem) (pol : RetentionMap) (now : Time)
    (root : String) (g : Globals)
    (h : ∀ names : List String, names.length < 5 → Reach fs root names →
      shownNames fs (joinPath root names) = shownNames fs1 (joinPath root names)) :
    determineFilesToBeDeleted fs pol now root g = determineFilesToBeDeleted fs1 pol now root g :=
  walkLevels_congr fs fs1 pol now 5 root 1 g h

theorem malformedFs_reach : Reach malformedFs "/data" ["acme", "dev1", "2020", "1", "1x"] :=
  ⟨⟨by decide, _, rfl, ⟨"acme", true⟩, by decide, rfl⟩,
    ⟨by decide, _, rfl, ⟨"dev1", true⟩, by decide, rfl⟩,
    ⟨by decide, _, rfl, ⟨"2020", true⟩, by decide, rfl⟩,
    ⟨by decide, _, rfl, ⟨"1", true⟩, by decide, rfl⟩,
    ⟨by decide, _, rfl, ⟨"1x", true⟩, by decide, rfl⟩, trivial⟩

theorem hiddenName_of_visibleName {name : String} (h : visibleName name = true) :
    hiddenName name = false := by
  obtain ⟨c, cs, hd, hc⟩ := (visibleName_iff name).mp h
  simp [hiddenName, hd, hc]

/-- An invariant of storing a visible name and of the recursive call is an invariant of the loop
body. -/
theorem loopBody_invariant {recurse : String → Nat → Globals → Except Abort Globals}
    (P : Globals → Prop) {topDir : String} {n : Nat} {e : DirEntry} {g g1 : Globals}
    (hstore : ∀ g2, visibleName e.name = true → P g2 → P (recordName n e.name g2))
    (hrec : ∀ p g2 g3, recurse p (n + 1) g2 = .ok g3 → P g2 → P g3)
    (h : loopBody recurse topDir n e g = .ok g1) (hg : P g) : P g1 := by
  unfold loopBody at h
  simp only at h
  cases hd : e.name.data with
  | nil => rw [hd] at h; cases h
  | cons c cs =>
    rw [hd] at h
    simp only at h
    by_cases hc : c = '.'
    · simp only [hc, if_true] at h
      cases h
      exact hg
    · simp only [hc, if_false] at h
      exact hrec _ _ _ h (hstore g ((visibleName_iff _).mpr ⟨c, cs, hd, hc⟩) hg)

theorem NoHiddenStored.store {g0 g : Globals} (h : NoHiddenStored g0 g) (n : Nat)
    {name : String} (hv : visibleName name = true) : NoHiddenStored g0 (recordName n name g) := by
  have hh := hiddenName_of_visibleName hv
  obtain ⟨h1, h2, h3, h4⟩ := h
  unfold FsGc.recordName
  split_ifs
  · exact ⟨Or.inr hh, h2, h3, h4⟩
  · exact ⟨h1, Or.inr hh, h3, h4⟩
  · exact ⟨h1, h2, Or.inr hh, h4⟩
  · exact ⟨h1, h2, h3, Or.inr hh⟩
  · exact ⟨h1, h2, h3, h4⟩

theorem NoHiddenStored.of_preserves_all {g0 g g1 : Globals} (h : NoHiddenStored g0 g)
    (hp : Preserves 6 g g1) : NoHiddenStored g0 g1 := by
  unfold NoHiddenStored
  rw [hp.1 (by omega), hp.2.1 (by omega), hp.2.2.1 (by omega), hp.2.2.2 (by omega)]
  exact h

theorem walkLevels_noHiddenStored (fs : FileSystem) (pol : RetentionMap) (now : Time)
    (g0 : Globals) (k : Nat) :
    ∀ (topDir : String) (n : Nat) (g g1 : Globals),
      walkLevels fs pol now k topDir n g = .ok g1 → NoHiddenStored g0 g →
      NoHiddenStored g0 g1 := by
  induction k with
  | zero =>
    intro topDir n g g1 h hg
    exact hg.of_preserves_all (evalTerminal_preserves 6 h)
  | succ k ih =>
    intro topDir n g g1 h hg
    simp only [walkLevels, listAndLoop] at h
    cases hfs : fs topDir with
    | none => rw [hfs] at h; cases h; exact hg
    | some dirs =>
      rw [hfs] at h
      simp only at h
      refine rangeLoop_invariant (NoHiddenStored g0) ?_ hg h
      intro e _ gi gj hgi hbody
      exact loopBody_invariant (NoHiddenStored g0) (fun g2 hv h2 => h2.store n hv)
        (fun p g2 g3 h23 h2 => ih p (n + 1) g2 g3 h23 h2) hbody hgi

theorem helperLoop_invariant (fs : FileSystem) (pol : RetentionMap) (now : Time)
    (P : Globals → Prop) (topDir : String) (n : Nat)
    (hstore : ∀ name g2, visibleName name = true → P g2 → P (recordName n name g2))
    (hrec : ∀ k p g2 g3, walkLevels fs pol now k p (n + 1) g2 = .ok g3 → P g2 → P g3)
    {dirs : List DirEntry} {g g1 : Globals}
    (h : rangeLoop (loopBody (determineFilesToBeDeletedHelper fs pol now) topDir n) dirs g =
      .ok g1) (hg : P g) : P g1 := by
  refine rangeLoop_invariant P ?_ hg h
  intro e _ gi gj hgi hbody
  exact loopBody_invariant P (fun g2 hv h2 => hstore e.name g2 hv h2)
    (fun p g2 g3 h23 h2 => hrec _ p g2 g3 h23 h2) hbody hgi

theorem Invoked.noHiddenStored {fs : FileSystem} {pol : RetentionMap} {now : Time}
    {root : String} {g0 : Globals} {names : List String} {g : Globals}
    (h : Invoked fs pol now root g0 names g) : NoHiddenStored g0 g := by
  induction h with
  | start => exact ⟨Or.inl rfl, Or.inl rfl, Or.inl rfl, Or.inl rfl⟩
  | child names g gi before after e _ _ _ hloop hvis ih =>
    refine NoHiddenStored.store ?_ _ hvis
    exact helperLoop_invariant fs pol now (NoHiddenStored g0) _ _
      (fun name g2 hv h2 => h2.store _ hv)
      (fun k p g2 g3 h23 h2 => walkLevels_noHiddenStored fs pol now g0 k p _ g2 g3 h23 h2)
      hloop ih

theorem Reach.visible {fs : FileSystem} :
    ∀ (names : List String) (root : String), Reach fs root names →
      ∀ n ∈ names, visibleName n = true := by
  intro names
  induction names with
  | nil => intro root _ n hn; simp at hn
  | cons x names ih =>
    intro root h n hn
    rcases List.mem_cons.mp hn with rfl | hn1
    · exact h.1.1
    · exact ih _ h.2 n hn1

/-- When the run returns, every path it appended is the root followed by five visible names of
listable directories. -/
theorem determineFilesToBeDeleted_appended {fs : FileSystem} {pol : RetentionMap} {now : Time}
    {root : String} {g g1 : Globals} (h : determineFilesToBeDeleted fs pol now root g = .ok g1) :
    ∃ added, g1.dirsToBeDeleted = g.dirsToBeDeleted ++ added ∧
      ∀ q ∈ added, ∃ t dv y m d, Reach fs root [t, dv, y, m, d] ∧
        q = joinPath root [t, dv, y, m, d] := by
  obtain ⟨_, hdirs⟩ := determineFilesToBeDeleted_ok h
  refine ⟨_, hdirs, ?_⟩
  intro q hq
  obtain ⟨ev, hmem, hpath⟩ := List.mem_filterMap.mp hq
  cases ev with
  | emptyName => simp [Event.expiredPath] at hpath
  | evaluate p c y m d =>
    obtain ⟨t, dv, hreach, hp, _⟩ := (evaluate_mem_events_five fs root _ _ _ _ _).mp hmem
    simp only [Event.expiredPath] at hpath
    split at hpath
    · cases hpath
    · split_ifs at hpath
      injection hpath with hpath
      exact ⟨t, dv, y, m, d, hreach, by rw [← hpath, hp]⟩

/-- An abort has its cause in an entry the loop does not skip: a chain of five visible names whose
date does not parse, or an empty name. -/
theorem determineFilesToBeDeleted_error {fs : FileSystem} {pol : RetentionMap} {now : Time}
    {root : String} {g : Globals} {a : Abort}
    (h : determineFilesToBeDeleted fs pol now root g = .error a) :
    (∃ t dv y m d, Reach fs root [t, dv, y, m, d] ∧
      timeParse (y ++ "/" ++ m ++ "/" ++ d) = none) ∨ ¬ NonEmptyNames fs := by
  by_contra hcon
  push_neg at hcon
  obtain ⟨hall, hne⟩ := hcon
  have hm := determineFilesToBeDeleted_events fs pol now root g
  rw [h, runEvents_ok] at hm
  · simp [dirsOf] at hm
  · intro ev hmem
    cases ev with
    | emptyName => exact absurd hmem (emptyName_not_mem_events hne 5 root [])
    | evaluate p c y m d =>
      obtain ⟨t, dv, hreach, _, _⟩ := (evaluate_mem_events_five fs root _ _ _ _ _).mp hmem
      cases hp : timeParse (y ++ "/" ++ m ++ "/" ++ d) with
      | none => exact absurd hp (hall t dv y m d hreach)
      | some dt => simp [Event.parses, hp]

theorem shownNames_removeHidden (fs : FileSystem) (dir : String) :
    shownNames fs dir = shownNames (removeHidden fs) dir := by
  unfold shownNames removeHidden
  cases fs dir with
  | none => rfl
  | some dirs => simp [List.filter_filter]

theorem joinPath_append (root : String) (xs ys : List String) :
    joinPath root (xs ++ ys) = joinPath (joinPath root xs) ys := by
  simp [joinPath, List.foldl_append]

theorem Reach.listable {fs : FileSystem} :
    ∀ (names : List String) (root : String), Reach fs root names →
      ∀ j, j < names.length → ∃ dirs, fs (joinPath root (names.take j)) = some dirs := by
  intro names
  induction names with
  | nil => intro root _ j hj; simp at hj
  | cons x names ih =>
    intro root h j hj
    cases j with
    | zero =>
      obtain ⟨⟨_, dirs, hfs, _⟩, _⟩ := h
      exact ⟨dirs, by simpa [joinPath] using hfs⟩
    | succ j =>
      simp only [List.take_succ_cons, joinPath_cons]
      exact ih _ h.2 j (by simpa using hj)

theorem segments_shape (zs : List String) (tail : List Char)
    (ht : tail = [] ∨ ∃ r, tail = '/' :: r) :
    zs.flatMap (fun n => '/' :: n.data) ++ tail = [] ∨
      ∃ r, zs.flatMap (fun n => '/' :: n.data) ++ tail = '/' :: r := by
  cases zs with
  | nil => simpa using ht
  | cons z zs => exact Or.inr ⟨_, by simp [List.flatMap_cons]; rfl⟩

/-- If the path of slash-free names `ys` continues the path of slash-free names `xs` at a
separator, then `xs` is an initial segment of `ys`. -/
theorem segments_prefix : ∀ (xs ys : List String) (tail : List Char),
    (∀ n ∈ xs, '/' ∉ n.data) → (∀ n ∈ ys, '/' ∉ n.data) → (tail = [] ∨ ∃ r, tail = '/' :: r) →
    xs.flatMap (fun n => '/' :: n.data) ++ tail = ys.flatMap (fun n => '/' :: n.data) →
    ∃ zs, ys = xs ++ zs := by
  intro xs
  induction xs with
  | nil => intro ys _ _ _ _ _; exact ⟨ys, rfl⟩
  | cons x xs ih =>
    intro ys tail hx hy ht h
    cases ys with
    | nil => simp [List.flatMap_cons] at h
    | cons y ys =>
      simp only [List.flatMap_cons, List.cons_append, List.cons.injEq, true_and,
        List.append_assoc] at h
      obtain ⟨h1, h2⟩ := segment_cancel x.data y.data _ _ (hx x (List.mem_cons_self _ _))
        (hy y (List.mem_cons_self _ _)) (segments_shape xs tail ht)
        (by simpa using segments_shape ys [] (Or.inl rfl)) h
      obtain ⟨zs, hzs⟩ := ih ys tail (fun n hn => hx n (List.mem_cons_of_mem _ hn))
        (fun n hn => hy n (List.mem_cons_of_mem _ hn)) ht h2
      exact ⟨zs, by rw [String.ext h1, hzs]; rfl⟩

/-- No path reached through listable directories lies beneath a directory at depth 0 to 4 that
cannot be listed. -/
theorem Reach.not_beneath {fs : FileSystem} (hns : NoSlash fs) {root p : String}
    (hfail : fs p = none) {names0 : List String} (h0 : ∀ n ∈ names0, '/' ∉ n.data)
    (hlen : names0.length ≤ 4) (hp : p = joinPath root names0) {names : List String}
    (hreach : Reach fs root names) (hfive : names.length = 5) (more : List String) :
    joinPath root names ≠ joinPath p more := by
  intro heq
  have hd := congrArg String.data heq
  rw [hp, joinPath_data, joinPath_data, joinPath_data, List.append_assoc] at hd
  have hd1 := List.append_cancel_left hd
  obtain ⟨zs, hzs⟩ := segments_prefix names0 names _ h0 (hreach.noSlash hns _ _)
    (by simpa using segments_shape more [] (Or.inl rfl)) hd1.symm
  obtain ⟨dirs, hdirs⟩ := hreach.listable _ _ names0.length (by omega)
  rw [hzs, List.take_left, ← hp, hfail] at hdirs
  cases hdirs

theorem shownNames_update_none (fs : FileSystem) (p : String) (hfail : fs p = none)
    (dir : String) : shownNames fs dir = shownNames (Function.update fs p (some [])) dir := by
  unfold shownNames
  by_cases h : dir = p
  · subst h
    simp [hfail]
  · rw [Function.update_noteq h]

theorem shownNames_of_names {fs fs1 : FileSystem} {dir : String}
    (h : (fs dir).map (List.map (fun e => e.name)) = (fs1 dir).map (List.map (fun e => e.name))) :
    shownNames fs dir = shownNames fs1 dir := by
  have key : ∀ l : List DirEntry,
      (l.filter (fun e => !hiddenName e.name)).map (fun e => e.name) =
        (l.map (fun e => e.name)).filter (fun n => !hiddenName n) := by
    intro l
    induction l with
    | nil => rfl
    | cons e es ih =>
      by_cases he : hiddenName e.name = true
      · simp [List.filter_cons, he, ih]
      · simp [List.filter_cons, he, ih]
  unfold shownNames
  rw [key, key]
  cases h1 : fs dir with
  | none =>
    cases h2 : fs1 dir with
    | none => rfl
    | some l2 => rw [h1, h2] at h; simp at h
  | some l1 =>
    cases h2 : fs1 dir with
    | none => rw [h1, h2] at h; simp at h
    | some l2 =>
      rw [h1, h2] at h
      simp only [Option.map_some', Option.some.injEq] at h
      simp only [Option.getD_some]
      rw [h]

set_option maxRecDepth 100000 in
theorem exampleFsDenied_run :
    determineFilesToBeDeleted exampleFsDenied examplePolicy exampleNow "/data" initGlobals =
      .ok exampleEndDenied := by
  decide

theorem exampleFs_agree_sealed (names : List String) (hlen : names.length ≤ 4)
    (hreach : Reach exampleFs "/data" names) :
    (exampleFs (joinPath "/data" names)).map (List.map (fun e => e.name)) =
      (exampleFsSealed (joinPath "/data" names)).map (List.map (fun e => e.name)) := by
  unfold exampleFsSealed
  split_ifs with h
  · exfalso
    have h5 : joinPath "/data" names = joinPath "/data" ["acme", "dev1", "2020", "1", "15"] := by
      rw [h]
      decide
    have := joinPath_injective "/data" _ _ (hreach.noSlash exampleFs_noSlash _ _) (by decide) h5
    rw [this] at hlen
    simp at hlen
  · rfl

theorem shallowFs_no_reach (t dv y m d : String) : ¬ Reach shallowFs "/data" [t, dv, y, m, d] := by
  rintro ⟨⟨hv, dirs, hfs, e, he, rfl⟩, ⟨_, dirs2, hfs2, e2, he2, _⟩, _⟩
  have h1 : shallowFs "/data" = some [⟨"acme", true⟩, ⟨".cache", true⟩] := by decide
  rw [h1] at hfs
  injection hfs with hfs
  subst hfs
  simp only [List.mem_cons, List.mem_singleton, List.not_mem_nil, or_false] at he
  rcases he with rfl | rfl
  · have h2 : shallowFs ("/data" ++ "/" ++ "acme") = some [] := by decide
    rw [h2] at hfs2
    injection hfs2 with hfs2
    subst hfs2
    simp at he2
  · exact absurd hv (by decide)

theorem Invoked.agree {fs : FileSystem} {pol : RetentionMap} {now : Time}
    {root : String} {g0 : Globals} {names : List String} {g : Globals}
    (h : Invoked fs pol now root g0 names g) : Agree names g := by
  induction h with
  | start => exact Agree.nil g0
  | child names g gi before after e _ _ _ hloop _ ih =>
    refine Agree.snoc ?_ e.name
    exact helperLoop_invariant fs pol now (Agree names) _ _
      (fun name g2 _ h2 => h2.of_preserves (preserves_recordName _ name g2))
      (fun k p g2 g3 h23 h2 =>
        h2.of_preserves (walkLevels_preserves fs pol now k p _ g2 g3 h23).of_succ)
      hloop ih

set_option maxRecDepth 100000 in
theorem exampleFs_invoked_zeta :
    Invoked exampleFs examplePolicy exampleNow "/data" initGlobals
      ["zeta", "dev9", "2023", "12", "22"] exampleAtZeta := by
  have h1 : Invoked exampleFs examplePolicy exampleNow "/data" initGlobals ["zeta"]
      ⟨"zeta", "2024", "1", "1", exampleAfterAcme.dirsToBeDeleted⟩ :=
    Invoked.child [] initGlobals exampleAfterAcme [⟨".snapshot", true⟩, ⟨"acme", true⟩] []
      ⟨"zeta", true⟩ Invoked.start (by decide) (by decide) (by decide) (by decide)
  have h2 : Invoked exampleFs examplePolicy exampleNow "/data" initGlobals ["zeta", "dev9"]
      ⟨"zeta", "2024", "1", "1", exampleAfterAcme.dirsToBeDeleted⟩ :=
    Invoked.child ["zeta"] ⟨"zeta", "2024", "1", "1", exampleAfterAcme.dirsToBeDeleted⟩ ⟨"zeta", "2024", "1", "1", exampleAfterAcme.dirsToBeDeleted⟩ [] [] ⟨"dev9", true⟩ h1 (by decide) (by decide) rfl
      (by decide)
  have h3 : Invoked exampleFs examplePolicy exampleNow "/data" initGlobals
      ["zeta", "dev9", "2023"] ⟨"zeta", "2023", "1", "1", exampleAfterAcme.dirsToBeDeleted⟩ :=
    Invoked.child ["zeta", "dev9"] ⟨"zeta", "2024", "1", "1", exampleAfterAcme.dirsToBeDeleted⟩ ⟨"zeta", "2024", "1", "1", exampleAfterAcme.dirsToBeDeleted⟩ [] [] ⟨"2023", true⟩ h2 (by decide) (by decide)
      rfl (by decide)
  have h4 : Invoked exampleFs examplePolicy exampleNow "/data" initGlobals
      ["zeta", "dev9", "2023", "12"]
      ⟨"zeta", "2023", "12", "1", exampleAfterAcme.dirsToBeDeleted⟩ :=
    Invoked.child ["zeta", "dev9", "2023"] ⟨"zeta", "2023", "1", "1", exampleAfterAcme.dirsToBeDeleted⟩ ⟨"zeta", "2023", "1", "1", exampleAfterAcme.dirsToBeDeleted⟩ [] [] ⟨"12", true⟩ h3 (by decide)
      (by decide) rfl (by decide)
  exact Invoked.child ["zeta", "dev9", "2023", "12"] ⟨"zeta", "2023", "12", "1", exampleAfterAcme.dirsToBeDeleted⟩ ⟨"zeta", "2023", "12", "1", exampleAfterAcme.dirsToBeDeleted⟩ [] [] ⟨"22", true⟩ h4 (by decide)
    (by decide) rfl (by decide)

/-- Every call of the helper recorded by `Invoked` is executed by the run: when it aborts, the
run aborts in the same way. -/
theorem Invoked.error_propagates {fs : FileSystem} {pol : RetentionMap} {now : Time}
    {root : String} {g0 : Globals} {names : List String} {g : Globals}
    (h : Invoked fs pol now root g0 names g) :
    ∀ a, determineFilesToBeDeletedHelper fs pol now (joinPath root names) (names.length + 1) g =
      .error a → determineFilesToBeDeleted fs pol now root g0 = .error a := by
  induction h with
  | start => intro a ha; exact ha
  | child names g gi before after e _ hlen hfs hloop hvis ih =>
    intro a ha
    apply ih
    rw [determineFilesToBeDeletedHelper_eq]
    have hn : ¬ names.length + 1 > 5 := by omega
    simp only [hn, if_false, listAndLoop, hfs, rangeLoop_append, hloop, rangeLoop]
    obtain ⟨c, cs, hd, hc⟩ := (visibleName_iff _).mp hvis
    have hbody : loopBody (determineFilesToBeDeletedHelper fs pol now) (joinPath root names)
        (names.length + 1) e gi = .error a := by
      simp only [loopBody, hd, hc, if_false]
      rw [joinPath_snoc, List.length_append, List.length_singleton] at ha
      exact ha
    rw [hbody]

/-! ## binary64 rounding: order and exactness -/

theorem bitLenAux_spec (fuel : Nat) :
    ∀ n, n ≤ fuel → 0 < n → 2 ^ (bitLenAux fuel n - 1) ≤ n ∧ n < 2 ^ bitLenAux fuel n ∧
      0 < bitLenAux fuel n := by
  induction fuel with
  | zero => intro n h0 hn; omega
  | succ fuel ih =>
    intro n hle hn
    have hne : n ≠ 0 := by omega
    simp only [bitLenAux, hne, if_false]
    rcases Nat.eq_zero_or_pos (n / 2) with h2 | h2
    · have h1 : n = 1 := by omega
      subst h1
      cases fuel <;> simp [bitLenAux]
    · obtain ⟨ha, hb, hc⟩ := ih (n / 2) (by omega) h2
      refine ⟨?_, ?_, by omega⟩
      · have : bitLenAux fuel (n / 2) + 1 - 1 = (bitLenAux fuel (n / 2) - 1) + 1 := by omega
        rw [this, pow_succ]
        omega
      · rw [pow_succ]
        omega

theorem bitLen_spec (n : Nat) (hn : 0 < n) :
    2 ^ (bitLen n - 1) ≤ n ∧ n < 2 ^ bitLen n ∧ 0 < bitLen n :=
  bitLenAux_spec n n (le_refl n) hn

/-- A power of two with an integer exponent, split into numerator and denominator. -/
theorem two_zpow_split (e : Int) :
    (2 : ℚ) ^ e = (2 ^ e.toNat : ℚ) / (2 ^ (-e).toNat : ℚ) := by
  rcases le_total 0 e with h | h
  · obtain ⟨k, rfl⟩ := Int.eq_ofNat_of_zero_le h
    simp
  · obtain ⟨k, hk⟩ := Int.eq_ofNat_of_zero_le (neg_nonneg.mpr h)
    have : e = -(k : Int) := by omega
    subst this
    simp

theorem two_zpow_pos (e : Int) : (0 : ℚ) < (2 : ℚ) ^ e := zpow_pos (by norm_num) e

/-- The value `floorLog2 n d` is the integer part of the binary logarithm of `n / d`. -/
theorem floorLog2_spec (n d : Nat) (hn : 0 < n) (hd : 0 < d) :
    (2 : ℚ) ^ floorLog2 n d ≤ (n : ℚ) / d ∧ (n : ℚ) / d < (2 : ℚ) ^ (floorLog2 n d + 1) := by
  obtain ⟨hn1, hn2, hn3⟩ := bitLen_spec n hn
  obtain ⟨hd1, hd2, hd3⟩ := bitLen_spec d hd
  have hdq : (0 : ℚ) < d := by exact_mod_cast hd
  have hnq : (0 : ℚ) < n := by exact_mod_cast hn
  have hn1q : (2 : ℚ) ^ ((bitLen n : Int) - 1) ≤ n := by
    have : ((bitLen n : Int) - 1) = ((bitLen n - 1 : Nat) : Int) := by omega
    rw [this, zpow_natCast]
    exact_mod_cast hn1
  have hn2q : (n : ℚ) < (2 : ℚ) ^ (bitLen n : Int) := by
    rw [zpow_natCast]
    exact_mod_cast hn2
  have hd1q : (2 : ℚ) ^ ((bitLen d : Int) - 1) ≤ d := by
    have : ((bitLen d : Int) - 1) = ((bitLen d - 1 : Nat) : Int) := by omega
    rw [this, zpow_natCast]
    exact_mod_cast hd1
  have hd2q : (d : ℚ) < (2 : ℚ) ^ (bitLen d : Int) := by
    rw [zpow_natCast]
    exact_mod_cast hd2
  -- the test of `floorLog2` in rational form
  have htest : ∀ k0 : Int, (d * 2 ^ k0.toNat ≤ n * 2 ^ (-k0).toNat) ↔
      (2 : ℚ) ^ k0 ≤ (n : ℚ) / d := by
    intro k0
    rw [two_zpow_split, le_div_iff₀ hdq, div_mul_eq_mul_div,
      div_le_iff₀ (by positivity)]
    constructor
    · intro h
      have : ((d * 2 ^ k0.toNat : Nat) : ℚ) ≤ ((n * 2 ^ (-k0).toNat : Nat) : ℚ) := by
        exact_mod_cast h
      push_cast at this
      linarith
    · intro h
      have : ((d * 2 ^ k0.toNat : Nat) : ℚ) ≤ ((n * 2 ^ (-k0).toNat : Nat) : ℚ) := by
        push_cast
        linarith
      exact_mod_cast this
  have hup : (n : ℚ) / d < (2 : ℚ) ^ ((bitLen n : Int) - (bitLen d : Int) + 1) := by
    rw [div_lt_iff₀ hdq]
    calc (n : ℚ) < (2 : ℚ) ^ (bitLen n : Int) := hn2q
      _ = (2 : ℚ) ^ ((bitLen n : Int) - (bitLen d : Int) + 1) * (2 : ℚ) ^ ((bitLen d : Int) - 1) := by
        rw [← zpow_add₀ (by norm_num : (2 : ℚ) ≠ 0)]
        congr 1
        ring
      _ ≤ (2 : ℚ) ^ ((bitLen n : Int) - (bitLen d : Int) + 1) * d :=
        mul_le_mul_of_nonneg_left hd1q (le_of_lt (two_zpow_pos _))
  have hlow : (2 : ℚ) ^ ((bitLen n : Int) - (bitLen d : Int) - 1) ≤ (n : ℚ) / d := by
    rw [le_div_iff₀ hdq]
    calc (2 : ℚ) ^ ((bitLen n : Int) - (bitLen d : Int) - 1) * d
        ≤ (2 : ℚ) ^ ((bitLen n : Int) - (bitLen d : Int) - 1) * (2 : ℚ) ^ (bitLen d : Int) :=
          mul_le_mul_of_nonneg_left (le_of_lt hd2q) (le_of_lt (two_zpow_pos _))
      _ = (2 : ℚ) ^ ((bitLen n : Int) - 1) := by
        rw [← zpow_add₀ (by norm_num : (2 : ℚ) ≠ 0)]
        congr 1
        ring
      _ ≤ n := hn1q
  unfold floorLog2
  simp only
  split_ifs with h
  · exact ⟨(htest _).mp h, hup⟩
  · refine ⟨hlow, ?_⟩
    have := mt (htest _).mpr h
    rw [sub_add_cancel]
    exact lt_of_not_le this

theorem roundHalfEven_cases (n d : Nat) :
    roundHalfEven n d = n / d ∨ roundHalfEven n d = n / d + 1 := by
  unfold roundHalfEven
  simp only
  split_ifs <;> simp

/-- Rounding to the nearest integer, ties to even, is monotone. -/
theorem roundHalfEven_mono (n1 d1 n2 d2 : Nat) (h1 : 0 < d1) (h2 : 0 < d2)
    (h : n1 * d2 ≤ n2 * d1) : roundHalfEven n1 d1 ≤ roundHalfEven n2 d2 := by
  have e1 : d1 * (n1 / d1) + n1 % d1 = n1 := Nat.div_add_mod n1 d1
  have e2 : d2 * (n2 / d2) + n2 % d2 = n2 := Nat.div_add_mod n2 d2
  have r1 : n1 % d1 < d1 := Nat.mod_lt _ h1
  have r2 : n2 % d2 < d2 := Nat.mod_lt _ h2
  generalize n1 / d1 = q1 at *
  generalize n2 / d2 = q2 at *
  generalize n1 % d1 = s1 at *
  generalize n2 % d2 = s2 at *
  have hq : q1 ≤ q2 := by
    by_contra hcon
    have hlt : q2 + 1 ≤ q1 := by omega
    have a1 : d1 * (q2 + 1) ≤ d1 * q1 := Nat.mul_le_mul_left _ hlt
    have a2 : n2 < d2 * (q2 + 1) := by rw [Nat.mul_add, Nat.mul_one]; omega
    have a3 : n2 * d1 < d2 * (q2 + 1) * d1 := Nat.mul_lt_mul_of_pos_right a2 h1
    have a4 : d1 * q1 * d2 ≤ n1 * d2 := Nat.mul_le_mul_right _ (by omega)
    have a5 : d1 * (q2 + 1) * d2 ≤ d1 * q1 * d2 := Nat.mul_le_mul_right _ a1
    have a6 : d2 * (q2 + 1) * d1 = d1 * (q2 + 1) * d2 := by ring
    omega
  rcases Nat.lt_or_ge q1 q2 with hlt | hge
  · have c1 := roundHalfEven_cases (d1 * q1 + s1) d1
    have c2 := roundHalfEven_cases (d2 * q2 + s2) d2
    subst e1 e2
    have f1 : (d1 * q1 + s1) / d1 = q1 := by
      rw [Nat.mul_add_div h1, Nat.div_eq_of_lt r1]
      rfl
    have f2 : (d2 * q2 + s2) / d2 = q2 := by
      rw [Nat.mul_add_div h2, Nat.div_eq_of_lt r2]
      rfl
    rw [f1] at c1
    rw [f2] at c2
    omega
  · have hqq : q1 = q2 := by omega
    subst hqq
    subst e1 e2
    have f1 : (d1 * q1 + s1) / d1 = q1 := by
      rw [Nat.mul_add_div h1, Nat.div_eq_of_lt r1]
      rfl
    have f2 : (d2 * q1 + s2) / d2 = q1 := by
      rw [Nat.mul_add_div h2, Nat.div_eq_of_lt r2]
      rfl
    have g1 : (d1 * q1 + s1) % d1 = s1 := by
      rw [Nat.mul_add_mod, Nat.mod_eq_of_lt r1]
    have g2 : (d2 * q1 + s2) % d2 = s2 := by
      rw [Nat.mul_add_mod, Nat.mod_eq_of_lt r2]
    have hs : s1 * d2 ≤ s2 * d1 := by
      have : (d1 * q1 + s1) * d2 = d1 * q1 * d2 + s1 * d2 := by ring
      have : (d2 * q1 + s2) * d1 = d1 * q1 * d2 + s2 * d1 := by ring
      omega
    unfold roundHalfEven
    simp only [f1, f2, g1, g2]
    by_cases a : 2 * s1 < d1
    · simp only [a, if_true]
      split_ifs <;> omega
    · simp only [a, if_false]
      have a' : d1 ≤ 2 * s1 := by omega
      -- then `d2 ≤ 2 * s2`
      have b' : d2 ≤ 2 * s2 := by
        by_contra hb
        have hb' : 2 * s2 < d2 := by omega
        have k1 : 2 * s2 * d1 < d2 * d1 := Nat.mul_lt_mul_of_pos_right hb' h1
        have k2 : d1 * d2 ≤ 2 * s1 * d2 := Nat.mul_le_mul_right _ a'
        have k3 : 2 * s1 * d2 = 2 * (s1 * d2) := by ring
        have k4 : 2 * s2 * d1 = 2 * (s2 * d1) := by ring
        have k5 : d2 * d1 = d1 * d2 := by ring
        omega
      have nb : ¬ 2 * s2 < d2 := by omega
      simp only [nb, if_false]
      by_cases c : d1 < 2 * s1
      · simp only [c, if_true]
        have c2 : d2 < 2 * s2 := by
          by_contra hc
          have hc' : 2 * s2 = d2 := by omega
          have k1 : d1 * d2 < 2 * s1 * d2 := Nat.mul_lt_mul_of_pos_right c h2
          have k3 : 2 * s1 * d2 = 2 * (s1 * d2) := by ring
          have k4 : 2 * s2 * d1 = 2 * (s2 * d1) := by ring
          have k5 : 2 * s2 * d1 = d2 * d1 := by rw [hc']
          have k6 : d2 * d1 = d1 * d2 := by ring
          omega
        simp only [c2, if_true, le_refl]
      · simp only [c, if_false]
        split_ifs <;> omega

theorem roundHalfEven_exact (z d : Nat) (hd : 0 < d) : roundHalfEven (z * d) d = z := by
  unfold roundHalfEven
  simp [Nat.mul_div_cancel _ hd, hd]

/-- Rounding does not cross an integer: from below. -/
theorem le_roundHalfEven (z n d : Nat) (hd : 0 < d) (h : z * d ≤ n) : z ≤ roundHalfEven n d := by
  have := roundHalfEven_mono (z * 1) 1 n d (by omega) hd (by simpa using h)
  rw [roundHalfEven_exact z 1 (by omega)] at this
  exact this

/-- Rounding does not cross an integer: from above. -/
theorem roundHalfEven_le (z n d : Nat) (hd : 0 < d) (h : n ≤ z * d) : roundHalfEven n d ≤ z := by
  have := roundHalfEven_mono n d (z * 1) 1 hd (by omega) (by simpa using h)
  rw [roundHalfEven_exact z 1 (by omega)] at this
  exact this

theorem scaled_ge_iff (n d z : Nat) (e : Int) (hd : 0 < d) :
    z * (d * 2 ^ e.toNat) ≤ n * 2 ^ (-e).toNat ↔ (z : ℚ) * (2 : ℚ) ^ e ≤ (n : ℚ) / d := by
  have hdq : (0 : ℚ) < d := by exact_mod_cast hd
  rw [two_zpow_split, le_div_iff₀ hdq, mul_div_assoc', div_mul_eq_mul_div,
    div_le_iff₀ (by positivity)]
  constructor
  · intro h
    have : ((z * (d * 2 ^ e.toNat) : Nat) : ℚ) ≤ ((n * 2 ^ (-e).toNat : Nat) : ℚ) := by
      exact_mod_cast h
    push_cast at this
    linarith
  · intro h
    have : ((z * (d * 2 ^ e.toNat) : Nat) : ℚ) ≤ ((n * 2 ^ (-e).toNat : Nat) : ℚ) := by
      push_cast
      linarith
    exact_mod_cast this

theorem scaled_le_iff (n d z : Nat) (e : Int) (hd : 0 < d) :
    n * 2 ^ (-e).toNat ≤ z * (d * 2 ^ e.toNat) ↔ (n : ℚ) / d ≤ (z : ℚ) * (2 : ℚ) ^ e := by
  have hdq : (0 : ℚ) < d := by exact_mod_cast hd
  rw [two_zpow_split, div_le_iff₀ hdq, mul_div_assoc', div_mul_eq_mul_div,
    le_div_iff₀ (by positivity)]
  constructor
  · intro h
    have : ((n * 2 ^ (-e).toNat : Nat) : ℚ) ≤ ((z * (d * 2 ^ e.toNat) : Nat) : ℚ) := by
      exact_mod_cast h
    push_cast at this
    linarith
  · intro h
    have : ((n * 2 ^ (-e).toNat : Nat) : ℚ) ≤ ((z * (d * 2 ^ e.toNat) : Nat) : ℚ) := by
      push_cast
      linarith
    exact_mod_cast this

theorem valNat_nonneg (p : Nat × Int) : 0 ≤ valNat p :=
  mul_nonneg (by positivity) (le_of_lt (two_zpow_pos _))

theorem roundNat_zero (d : Nat) : roundNat 0 d = (0, 0) := by simp [roundNat]

theorem cross_to_rat {n1 d1 n2 d2 : Nat} (h1 : 0 < d1) (h2 : 0 < d2) (h : n1 * d2 ≤ n2 * d1) :
    (n1 : ℚ) / d1 ≤ (n2 : ℚ) / d2 := by
  have h1q : (0 : ℚ) < d1 := by exact_mod_cast h1
  have h2q : (0 : ℚ) < d2 := by exact_mod_cast h2
  rw [div_le_iff₀ h1q, div_mul_eq_mul_div, le_div_iff₀ h2q]
  exact_mod_cast h

/-- Rounding a positive rational to binary64 is monotone. -/
theorem roundNat_mono (n1 d1 n2 d2 : Nat) (h1 : 0 < d1) (h2 : 0 < d2)
    (h : n1 * d2 ≤ n2 * d1) : valNat (roundNat n1 d1) ≤ valNat (roundNat n2 d2) := by
  rcases Nat.eq_zero_or_pos n1 with hz | hn1
  · subst hz
    rw [roundNat_zero]
    simpa [valNat] using valNat_nonneg (roundNat n2 d2)
  have hn2 : 0 < n2 := by
    rcases Nat.eq_zero_or_pos n2 with hz | hp
    · subst hz
      have : 0 < n1 * d2 := Nat.mul_pos hn1 h2
      omega
    · exact hp
  have hx := cross_to_rat h1 h2 h
  obtain ⟨a1, b1⟩ := floorLog2_spec n1 d1 hn1 h1
  obtain ⟨a2, b2⟩ := floorLog2_spec n2 d2 hn2 h2
  have hk : floorLog2 n1 d1 ≤ floorLog2 n2 d2 := by
    have : (2 : ℚ) ^ floorLog2 n1 d1 < (2 : ℚ) ^ (floorLog2 n2 d2 + 1) :=
      lt_of_le_of_lt (le_trans a1 hx) b2
    have := (zpow_lt_zpow_iff_right₀ (by norm_num : (1 : ℚ) < 2)).mp this
    omega
  simp only [roundNat, Nat.pos_iff_ne_zero.mp hn1, Nat.pos_iff_ne_zero.mp hn2, if_false, valNat]
  generalize he1 : max (floorLog2 n1 d1 - 52) (-1074) = e1
  generalize he2 : max (floorLog2 n2 d2 - 52) (-1074) = e2
  have hle : e1 ≤ e2 := by
    rw [← he1, ← he2]
    exact max_le_max (by omega) (le_refl _)
  rcases eq_or_lt_of_le hle with heq | hlt
  · subst heq
    have hm : roundHalfEven (n1 * 2 ^ (-e1).toNat) (d1 * 2 ^ e1.toNat) ≤
        roundHalfEven (n2 * 2 ^ (-e1).toNat) (d2 * 2 ^ e1.toNat) := by
      apply roundHalfEven_mono _ _ _ _ (by positivity) (by positivity)
      calc n1 * 2 ^ (-e1).toNat * (d2 * 2 ^ e1.toNat)
          = (n1 * d2) * (2 ^ (-e1).toNat * 2 ^ e1.toNat) := by ring
        _ ≤ (n2 * d1) * (2 ^ (-e1).toNat * 2 ^ e1.toNat) := Nat.mul_le_mul_right _ h
        _ = n2 * 2 ^ (-e1).toNat * (d1 * 2 ^ e1.toNat) := by ring
    exact mul_le_mul_of_nonneg_right (by exact_mod_cast hm) (le_of_lt (two_zpow_pos _))
  · have hk1 : floorLog2 n1 d1 - 52 ≤ e1 := by rw [← he1]; exact le_max_left _ _
    have hk2 : e2 = floorLog2 n2 d2 - 52 := by
      have : (-1074 : Int) ≤ e1 := by rw [← he1]; exact le_max_right _ _
      rw [← he2]
      apply max_eq_left
      by_contra hcon
      have : e2 = -1074 := by
        rw [← he2]
        exact max_eq_right (by omega)
      omega
    have hm1 : roundHalfEven (n1 * 2 ^ (-e1).toNat) (d1 * 2 ^ e1.toNat) ≤ 2 ^ 53 := by
      apply roundHalfEven_le _ _ _ (by positivity)
      rw [scaled_le_iff _ _ _ _ h1]
      have : (2 : ℚ) ^ (floorLog2 n1 d1 + 1) ≤ ((2 ^ 53 : Nat) : ℚ) * (2 : ℚ) ^ e1 := by
        have h53 : ((2 ^ 53 : Nat) : ℚ) = (2 : ℚ) ^ (53 : Int) := by norm_num
        rw [h53, ← zpow_add₀ (by norm_num : (2 : ℚ) ≠ 0)]
        exact zpow_le_zpow_right₀ (by norm_num) (by omega)
      exact le_trans (le_of_lt b1) this
    have hm2 : 2 ^ 52 ≤ roundHalfEven (n2 * 2 ^ (-e2).toNat) (d2 * 2 ^ e2.toNat) := by
      apply le_roundHalfEven _ _ _ (by positivity)
      rw [scaled_ge_iff _ _ _ _ h2]
      have : ((2 ^ 52 : Nat) : ℚ) * (2 : ℚ) ^ e2 = (2 : ℚ) ^ floorLog2 n2 d2 := by
        have h52 : ((2 ^ 52 : Nat) : ℚ) = (2 : ℚ) ^ (52 : Int) := by norm_num
        rw [h52, ← zpow_add₀ (by norm_num : (2 : ℚ) ≠ 0), hk2]
        congr 1
        ring
      rw [this]
      exact a2
    calc ((roundHalfEven (n1 * 2 ^ (-e1).toNat) (d1 * 2 ^ e1.toNat) : Nat) : ℚ) * (2 : ℚ) ^ e1
        ≤ ((2 ^ 53 : Nat) : ℚ) * (2 : ℚ) ^ e1 :=
          mul_le_mul_of_nonneg_right (by exact_mod_cast hm1) (le_of_lt (two_zpow_pos _))
      _ = (2 : ℚ) ^ (53 + e1) := by
          have h53 : ((2 ^ 53 : Nat) : ℚ) = (2 : ℚ) ^ (53 : Int) := by norm_num
          rw [h53, ← zpow_add₀ (by norm_num : (2 : ℚ) ≠ 0)]
      _ ≤ (2 : ℚ) ^ (52 + e2) := zpow_le_zpow_right₀ (by norm_num) (by omega)
      _ = ((2 ^ 52 : Nat) : ℚ) * (2 : ℚ) ^ e2 := by
          have h52 : ((2 ^ 52 : Nat) : ℚ) = (2 : ℚ) ^ (52 : Int) := by norm_num
          rw [h52, ← zpow_add₀ (by norm_num : (2 : ℚ) ≠ 0)]
      _ ≤ ((roundHalfEven (n2 * 2 ^ (-e2).toNat) (d2 * 2 ^ e2.toNat) : Nat) : ℚ) * (2 : ℚ) ^ e2 :=
          mul_le_mul_of_nonneg_right (by exact_mod_cast hm2) (le_of_lt (two_zpow_pos _))

theorem toRat_round (n : Int) (d : Nat) :
    F64.toRat (F64.round n d) =
      if n < 0 then -valNat (roundNat n.natAbs d) else valNat (roundNat n.natAbs d) := by
  unfold F64.round F64.toRat valNat
  simp only
  split_ifs <;> simp

/-- Rounding a rational to binary64 is monotone. -/
theorem round_mono (n1 n2 : Int) (d1 d2 : Nat) (h1 : 0 < d1) (h2 : 0 < d2)
    (h : n1 * d2 ≤ n2 * d1) : F64.toRat (F64.round n1 d1) ≤ F64.toRat (F64.round n2 d2) := by
  have h1z : (0 : Int) < d1 := by exact_mod_cast h1
  have h2z : (0 : Int) < d2 := by exact_mod_cast h2
  rw [toRat_round, toRat_round]
  by_cases s1 : n1 < 0
  · by_cases s2 : n2 < 0
    · simp only [s1, s2, if_true, neg_le_neg_iff]
      apply roundNat_mono _ _ _ _ h2 h1
      have e1 : (n1.natAbs : Int) = -n1 := by omega
      have e2 : (n2.natAbs : Int) = -n2 := by omega
      have : (n2.natAbs : Int) * d1 ≤ (n1.natAbs : Int) * d2 := by
        rw [e1, e2]
        linarith
      exact_mod_cast this
    · simp only [s1, s2, if_true, if_false]
      exact le_trans (neg_nonpos.mpr (valNat_nonneg _)) (valNat_nonneg _)
  · have s2 : ¬ n2 < 0 := by
      intro hneg
      have : n2 * d1 < 0 := mul_neg_of_neg_of_pos hneg h1z
      have : 0 ≤ n1 * d2 := mul_nonneg (by omega) (le_of_lt h2z)
      omega
    simp only [s1, s2, if_false]
    apply roundNat_mono _ _ _ _ h1 h2
    have e1 : (n1.natAbs : Int) = n1 := by omega
    have e2 : (n2.natAbs : Int) = n2 := by omega
    have : (n1.natAbs : Int) * d2 ≤ (n2.natAbs : Int) * d1 := by
      rw [e1, e2]
      exact h
    exact_mod_cast this

/-- Monotonicity of rounding, with the comparison of the arguments stated in `ℚ`. -/
theorem round_mono_rat (n1 n2 : Int) (d1 d2 : Nat) (h1 : 0 < d1) (h2 : 0 < d2)
    (h : (n1 : ℚ) / d1 ≤ (n2 : ℚ) / d2) :
    F64.toRat (F64.round n1 d1) ≤ F64.toRat (F64.round n2 d2) := by
  apply round_mono n1 n2 d1 d2 h1 h2
  have h1q : (0 : ℚ) < d1 := by exact_mod_cast h1
  have h2q : (0 : ℚ) < d2 := by exact_mod_cast h2
  rw [div_le_iff₀ h1q, div_mul_eq_mul_div, le_div_iff₀ h2q] at h
  exact_mod_cast h

theorem toNat_zpow (e : Int) (h : 0 ≤ e) : ((2 ^ e.toNat : Nat) : ℚ) = (2 : ℚ) ^ e := by
  obtain ⟨k, rfl⟩ := Int.eq_ofNat_of_zero_le h
  simp

/-- The rational that `F64.add` rounds is the exact sum. -/
theorem add_arg (x y : F64) :
    (((x.m * 2 ^ (x.e - min x.e y.e).toNat + y.m * 2 ^ (y.e - min x.e y.e).toNat) *
        2 ^ (min x.e y.e).toNat : Int) : ℚ) / ((2 ^ (-(min x.e y.e)).toNat : Nat) : ℚ) =
      F64.toRat x + F64.toRat y := by
  have hx : 0 ≤ x.e - min x.e y.e := by have := min_le_left x.e y.e; omega
  have hy : 0 ≤ y.e - min x.e y.e := by have := min_le_right x.e y.e; omega
  have ex : (2 : ℚ) ^ x.e = (2 : ℚ) ^ (x.e - min x.e y.e) * (2 : ℚ) ^ (min x.e y.e) := by
    rw [← zpow_add₀ (by norm_num : (2 : ℚ) ≠ 0)]
    congr 1
    ring
  have ey : (2 : ℚ) ^ y.e = (2 : ℚ) ^ (y.e - min x.e y.e) * (2 : ℚ) ^ (min x.e y.e) := by
    rw [← zpow_add₀ (by norm_num : (2 : ℚ) ≠ 0)]
    congr 1
    ring
  unfold F64.toRat
  rw [ex, ey, two_zpow_split (min x.e y.e)]
  push_cast
  rw [← toNat_zpow _ hx, ← toNat_zpow _ hy]
  push_cast
  ring

theorem toRat_add (x y : F64) :
    F64.toRat (F64.add x y) =
      F64.toRat (F64.round
        ((x.m * 2 ^ (x.e - min x.e y.e).toNat + y.m * 2 ^ (y.e - min x.e y.e).toNat) *
          2 ^ (min x.e y.e).toNat) (2 ^ (-(min x.e y.e)).toNat)) := rfl

/-- Addition of binary64 values is monotone in the exact sum. -/
theorem add_mono (x1 y1 x2 y2 : F64)
    (h : F64.toRat x1 + F64.toRat y1 ≤ F64.toRat x2 + F64.toRat y2) :
    F64.toRat (F64.add x1 y1) ≤ F64.toRat (F64.add x2 y2) := by
  rw [toRat_add, toRat_add]
  apply round_mono_rat _ _ _ _ (by positivity) (by positivity)
  rw [add_arg, add_arg]
  exact h

theorem div_arg_aux (xm ym : Int) (s ye : Int) (hy : ym ≠ 0) :
    ((xm * Int.sign ym * 2 ^ s.toNat : Int) : ℚ) / ((ym.natAbs * 2 ^ (-s).toNat : Nat) : ℚ) =
      ((xm : ℚ) * (2 : ℚ) ^ (s + ye)) / ((ym : ℚ) * (2 : ℚ) ^ ye) := by
  have hym : (ym : ℚ) ≠ 0 := by exact_mod_cast hy
  have hp3 : ((2 : ℚ) ^ ye) ≠ 0 := ne_of_gt (two_zpow_pos _)
  rw [zpow_add₀ (by norm_num : (2 : ℚ) ≠ 0), two_zpow_split s]
  generalize (2 : ℚ) ^ ye = c at *
  have hA : ((2 : ℚ) ^ s.toNat) ≠ 0 := by positivity
  have hB : ((2 : ℚ) ^ (-s).toNat) ≠ 0 := by positivity
  push_cast
  generalize (2 : ℚ) ^ s.toNat = A at *
  generalize (2 : ℚ) ^ (-s).toNat = B at *
  rcases lt_trichotomy ym 0 with h | h | h
  · have hn : ((ym.natAbs : Nat) : ℚ) = -(ym : ℚ) := by
      rw [Nat.cast_natAbs, abs_of_neg h]
      push_cast
      rfl
    rw [Int.sign_eq_neg_one_of_neg h, hn]
    push_cast
    field_simp
    ring
  · exact absurd h hy
  · have hn : ((ym.natAbs : Nat) : ℚ) = (ym : ℚ) := by
      rw [Nat.cast_natAbs, abs_of_pos h]
    rw [Int.sign_eq_one_of_pos h, hn]
    push_cast
    field_simp
    ring

/-- The rational that `F64.div` rounds is the exact quotient. -/
theorem div_arg (x y : F64) (hy : y.m ≠ 0) :
    ((x.m * Int.sign y.m * 2 ^ (x.e - y.e).toNat : Int) : ℚ) /
        ((y.m.natAbs * 2 ^ (-(x.e - y.e)).toNat : Nat) : ℚ) =
      F64.toRat x / F64.toRat y := by
  have := div_arg_aux x.m y.m (x.e - y.e) y.e hy
  rw [sub_add_cancel] at this
  exact this

theorem toRat_div (x y : F64) :
    F64.toRat (F64.div x y) =
      F64.toRat (F64.round (x.m * Int.sign y.m * 2 ^ (x.e - y.e).toNat)
        (y.m.natAbs * 2 ^ (-(x.e - y.e)).toNat)) := rfl

/-- Division by a positive binary64 value is monotone in the dividend. -/
theorem div_mono (x1 x2 y : F64) (hy : 0 < y.m) (h : F64.toRat x1 ≤ F64.toRat x2) :
    F64.toRat (F64.div x1 y) ≤ F64.toRat (F64.div x2 y) := by
  have hne : y.m ≠ 0 := by omega
  have hab : 0 < y.m.natAbs := Int.natAbs_pos.mpr hne
  have hyq : 0 < F64.toRat y := by
    unfold F64.toRat
    exact mul_pos (by exact_mod_cast hy) (two_zpow_pos _)
  rw [toRat_div, toRat_div]
  apply round_mono_rat _ _ _ _ (by positivity) (by positivity)
  rw [div_arg x1 y hne, div_arg x2 y hne]
  exact div_le_div_of_nonneg_right h (le_of_lt hyq)

theorem ofInt_mono (n1 n2 : Int) (h : n1 ≤ n2) :
    F64.toRat (F64.ofInt n1) ≤ F64.toRat (F64.ofInt n2) := by
  unfold F64.ofInt
  apply round_mono _ _ _ _ (by omega) (by omega)
  simpa using h

/-- A rational with a mantissa below `2 ^ 53` and an exponent of at least `-1074` is rounded to
itself. -/
theorem roundNat_exact (n d m : Nat) (e1 : Int) (hd : 0 < d)
    (hval : (n : ℚ) / d = (m : ℚ) * (2 : ℚ) ^ e1) (hm : m < 2 ^ 53) (he : -1074 ≤ e1) :
    valNat (roundNat n d) = (m : ℚ) * (2 : ℚ) ^ e1 := by
  have hdq : (0 : ℚ) < d := by exact_mod_cast hd
  rcases Nat.eq_zero_or_pos n with hz | hn
  · subst hz
    have h0 : (m : ℚ) * (2 : ℚ) ^ e1 = 0 := by rw [← hval]; simp
    rw [roundNat_zero, h0]
    simp [valNat]
  obtain ⟨a, b⟩ := floorLog2_spec n d hn hd
  have hk : floorLog2 n d - 52 ≤ e1 := by
    have h1 : (2 : ℚ) ^ floorLog2 n d < (2 : ℚ) ^ (53 + e1) := by
      calc (2 : ℚ) ^ floorLog2 n d ≤ (m : ℚ) * (2 : ℚ) ^ e1 := by rw [← hval]; exact a
        _ < ((2 ^ 53 : Nat) : ℚ) * (2 : ℚ) ^ e1 :=
          mul_lt_mul_of_pos_right (by exact_mod_cast hm) (two_zpow_pos _)
        _ = (2 : ℚ) ^ (53 + e1) := by
          have h53 : ((2 ^ 53 : Nat) : ℚ) = (2 : ℚ) ^ (53 : Int) := by norm_num
          rw [h53, ← zpow_add₀ (by norm_num : (2 : ℚ) ≠ 0)]
    have := (zpow_lt_zpow_iff_right₀ (by norm_num : (1 : ℚ) < 2)).mp h1
    omega
  simp only [roundNat, Nat.pos_iff_ne_zero.mp hn, if_false, valNat]
  generalize he0 : max (floorLog2 n d - 52) (-1074) = e
  have hle : e ≤ e1 := by rw [← he0]; exact max_le hk he
  have ht : 0 ≤ e1 - e := by omega
  have hz : ((m * 2 ^ (e1 - e).toNat : Nat) : ℚ) * (2 : ℚ) ^ e = (m : ℚ) * (2 : ℚ) ^ e1 := by
    push_cast
    have := toNat_zpow (e1 - e) ht
    push_cast at this
    rw [this, mul_assoc, ← zpow_add₀ (by norm_num : (2 : ℚ) ≠ 0), sub_add_cancel]
  have hN : n * 2 ^ (-e).toNat = (m * 2 ^ (e1 - e).toNat) * (d * 2 ^ e.toNat) := by
    apply le_antisymm
    · rw [scaled_le_iff _ _ _ _ hd, hz, hval]
    · rw [scaled_ge_iff _ _ _ _ hd, hz, hval]
  rw [hN, roundHalfEven_exact _ _ (by positivity), hz]

theorem round_exact (n : Int) (d : Nat) (m : Int) (e1 : Int) (hd : 0 < d)
    (hval : (n : ℚ) / d = (m : ℚ) * (2 : ℚ) ^ e1) (hm : m.natAbs < 2 ^ 53) (he : -1074 ≤ e1) :
    F64.toRat (F64.round n d) = (m : ℚ) * (2 : ℚ) ^ e1 := by
  have hdq : (0 : ℚ) < d := by exact_mod_cast hd
  have hpos := two_zpow_pos e1
  rw [toRat_round]
  by_cases hn : n < 0
  · have hmneg : m < 0 := by
      by_contra hcon
      have h1 : (0 : ℚ) ≤ (m : ℚ) * (2 : ℚ) ^ e1 :=
        mul_nonneg (by exact_mod_cast (not_lt.mp hcon)) (le_of_lt hpos)
      have h2 : (n : ℚ) / d < 0 := div_neg_of_neg_of_pos (by exact_mod_cast hn) hdq
      linarith
    simp only [hn, if_true]
    have hna : ((n.natAbs : Nat) : ℚ) = -(n : ℚ) := by
      rw [Nat.cast_natAbs, abs_of_neg hn]
      push_cast
      rfl
    have hma : ((m.natAbs : Nat) : ℚ) = -(m : ℚ) := by
      rw [Nat.cast_natAbs, abs_of_neg hmneg]
      push_cast
      rfl
    rw [roundNat_exact n.natAbs d m.natAbs e1 hd (by rw [hna, hma, neg_div, hval, neg_mul]) hm he,
      hma]
    ring
  · have hmnn : 0 ≤ m := by
      by_contra hcon
      have h1 : (m : ℚ) * (2 : ℚ) ^ e1 < 0 :=
        mul_neg_of_neg_of_pos (by exact_mod_cast (not_le.mp hcon)) hpos
      have h2 : (0 : ℚ) ≤ (n : ℚ) / d :=
        div_nonneg (by exact_mod_cast (not_lt.mp hn)) (le_of_lt hdq)
      linarith
    simp only [hn, if_false]
    have hna : ((n.natAbs : Nat) : ℚ) = (n : ℚ) := by
      rw [Nat.cast_natAbs, abs_of_nonneg (not_lt.mp hn)]
    have hma : ((m.natAbs : Nat) : ℚ) = (m : ℚ) := by
      rw [Nat.cast_natAbs, abs_of_nonneg hmnn]
    rw [roundNat_exact n.natAbs d m.natAbs e1 hd (by rw [hna, hma, hval]) hm he, hma]

/-- Integers below `2 ^ 53` in absolute value convert exactly. -/
theorem ofInt_exact (n : Int) (h : n.natAbs < 2 ^ 53) : F64.toRat (F64.ofInt n) = n := by
  unfold F64.ofInt
  rw [round_exact n 1 n 0 (by omega) (by simp) h (by omega)]
  simp

theorem tdiv_mono (a1 a2 b1 b2 : Int) (h1 : 0 < b1) (h2 : 0 < b2) (h : a1 * b2 ≤ a2 * b1) :
    Int.tdiv a1 b1 ≤ Int.tdiv a2 b2 := by
  have key : ∀ (x y c d : Int), 0 ≤ x → 0 < c → 0 < d → x * d ≤ y * c → x / c ≤ y / d := by
    intro x y c d hx hc hd hxy
    rw [Int.le_ediv_iff_mul_le hd]
    have hq : x / c * c ≤ x := Int.ediv_mul_le x (ne_of_gt hc)
    have hq0 : 0 ≤ x / c := Int.ediv_nonneg hx (le_of_lt hc)
    by_contra hcon
    push_neg at hcon
    have k1 : y * c < x / c * d * c := mul_lt_mul_of_pos_right hcon hc
    have k2 : x / c * c * d ≤ x * d := mul_le_mul_of_nonneg_right hq (le_of_lt hd)
    have k3 : x / c * d * c = x / c * c * d := by ring
    omega
  by_cases s1 : 0 ≤ a1
  · have s2 : 0 ≤ a2 := by
      by_contra hcon
      have : a2 * b1 < 0 := mul_neg_of_neg_of_pos (not_le.mp hcon) h1
      have : 0 ≤ a1 * b2 := mul_nonneg s1 (le_of_lt h2)
      omega
    rw [Int.tdiv_eq_ediv s1 (le_of_lt h1), Int.tdiv_eq_ediv s2 (le_of_lt h2)]
    exact key a1 a2 b1 b2 s1 h1 h2 h
  · have n1 : Int.tdiv a1 b1 = -((-a1) / b1) := by
      rw [← Int.tdiv_eq_ediv (by omega) (le_of_lt h1), Int.neg_tdiv, neg_neg]
    by_cases s2 : 0 ≤ a2
    · rw [n1, Int.tdiv_eq_ediv s2 (le_of_lt h2)]
      have q1 : 0 ≤ (-a1) / b1 := Int.ediv_nonneg (by omega) (le_of_lt h1)
      have q2 : 0 ≤ a2 / b2 := Int.ediv_nonneg s2 (le_of_lt h2)
      omega
    · have n2 : Int.tdiv a2 b2 = -((-a2) / b2) := by
        rw [← Int.tdiv_eq_ediv (by omega) (le_of_lt h2), Int.neg_tdiv, neg_neg]
      rw [n1, n2, neg_le_neg_iff]
      exact key (-a2) (-a1) b2 b1 (by omega) h2 h1 (by linarith)

/-- The conversion to an integer is monotone. -/
theorem toInt_mono (x y : F64) (h : F64.toRat x ≤ F64.toRat y) : F64.toInt x ≤ F64.toInt y := by
  unfold F64.toInt
  apply tdiv_mono _ _ _ _ (by positivity) (by positivity)
  unfold F64.toRat at h
  rw [two_zpow_split x.e, two_zpow_split y.e, mul_div_assoc', mul_div_assoc',
    div_le_iff₀ (by positivity), div_mul_eq_mul_div, le_div_iff₀ (by positivity)] at h
  have : ((x.m * 2 ^ x.e.toNat * 2 ^ (-y.e).toNat : Int) : ℚ) ≤
      ((y.m * 2 ^ y.e.toNat * 2 ^ (-x.e).toNat : Int) : ℚ) := by
    push_cast
    linarith
  exact_mod_cast this

/-- The duration `t.Sub(u)` is the difference, saturated at the int64 range. -/
theorem Sub_eq (t u : Time) :
    t.Sub u = if t.unixNano - u.unixNano < minDuration then minDuration
      else if maxDuration < t.unixNano - u.unixNano then maxDuration
      else t.unixNano - u.unixNano := by
  unfold Time.Sub wrapInt64 minDuration maxDuration
  norm_num only
  split_ifs <;> omega

theorem Sub_mono (t1 t2 u : Time) (h : t1.unixNano ≤ t2.unixNano) : t1.Sub u ≤ t2.Sub u := by
  rw [Sub_eq, Sub_eq]
  unfold minDuration maxDuration
  norm_num only
  split_ifs <;> omega

theorem Sub_range (t u : Time) : minDuration ≤ t.Sub u ∧ t.Sub u ≤ maxDuration := by
  rw [Sub_eq]
  unfold minDuration maxDuration
  norm_num only
  split_ifs <;> omega

theorem Sub_self (t : Time) : t.Sub t = 0 := by
  rw [Sub_eq]
  unfold minDuration maxDuration
  norm_num

/-- Quotient and remainder of the truncated division by `Hour`. -/
theorem tdiv_tmod_Hour (d : Int) :
    (0 ≤ d ∧ Int.tdiv d Hour = d / 3600000000000 ∧ Int.tmod d Hour = d % 3600000000000) ∨
    (d < 0 ∧ Int.tdiv d Hour = -((-d) / 3600000000000) ∧
      Int.tmod d Hour = -((-d) % 3600000000000)) := by
  unfold Hour
  rcases le_or_lt 0 d with h | h
  · exact Or.inl ⟨h, Int.tdiv_eq_ediv h (by norm_num), Int.tmod_eq_emod h (by norm_num)⟩
  · refine Or.inr ⟨h, ?_, ?_⟩
    · rw [← Int.tdiv_eq_ediv (by omega) (by norm_num), Int.neg_tdiv, neg_neg]
    · have e1 := Int.tmod_add_tdiv d 3600000000000
      have e2 : Int.tdiv d 3600000000000 = -((-d) / 3600000000000) := by
        rw [← Int.tdiv_eq_ediv (by omega) (by norm_num), Int.neg_tdiv, neg_neg]
      rw [e2] at e1
      omega

set_option maxRecDepth 100000 in
theorem hourConst_eq : F64.ofInt (60 * 60 * 1000000000) = ⟨7372800000000000, -11⟩ := by decide

theorem toRat_hourConst : F64.toRat (F64.ofInt (60 * 60 * 1000000000)) = 3600000000000 := by
  rw [hourConst_eq]
  norm_num [F64.toRat]

/-- The fraction `float64(nsec) / (60 * 60 * 1e9)` of `Hours`. -/
theorem fraction_mono (n1 n2 : Int) (h : n1 ≤ n2) :
    F64.toRat (F64.div (F64.ofInt n1) (F64.ofInt (60 * 60 * 1000000000))) ≤
      F64.toRat (F64.div (F64.ofInt n2) (F64.ofInt (60 * 60 * 1000000000))) := by
  apply div_mono _ _ _ _ (ofInt_mono n1 n2 h)
  rw [hourConst_eq]
  decide

set_option maxRecDepth 100000 in
theorem fraction_values :
    F64.toRat (F64.div (F64.ofInt 0) (F64.ofInt (60 * 60 * 1000000000))) = 0 ∧
    F64.toRat (F64.div (F64.ofInt 3600000000000) (F64.ofInt (60 * 60 * 1000000000))) = 1 ∧
    F64.toRat (F64.div (F64.ofInt (-3600000000000)) (F64.ofInt (60 * 60 * 1000000000))) = -1 := by
  have h0 : F64.div (F64.ofInt 0) (F64.ofInt (60 * 60 * 1000000000)) = ⟨0, 0⟩ := by decide
  have h1 : F64.div (F64.ofInt 3600000000000) (F64.ofInt (60 * 60 * 1000000000)) =
      ⟨4503599627370496, -52⟩ := by decide
  have h2 : F64.div (F64.ofInt (-3600000000000)) (F64.ofInt (60 * 60 * 1000000000)) =
      ⟨-4503599627370496, -52⟩ := by decide
  rw [h0, h1, h2]
  norm_num [F64.toRat]

/-- The number of hours of a duration is monotone in the duration. -/
theorem Hours_mono (d1 d2 : Int) (h : d1 ≤ d2) (hlo : minDuration ≤ d1) (hhi : d2 ≤ maxDuration) :
    F64.toRat (Hours d1) ≤ F64.toRat (Hours d2) := by
  unfold minDuration at hlo
  unfold maxDuration at hhi
  norm_num only at hlo hhi
  unfold Hours
  simp only
  apply add_mono
  obtain ⟨f0, f1, fm1⟩ := fraction_values
  have c1 := tdiv_tmod_Hour d1
  have c2 := tdiv_tmod_Hour d2
  generalize Int.tdiv d1 Hour = q1 at *
  generalize Int.tdiv d2 Hour = q2 at *
  generalize Int.tmod d1 Hour = r1 at *
  generalize Int.tmod d2 Hour = r2 at *
  have hq1 : q1.natAbs < 2 ^ 53 := by norm_num only; omega
  have hq2 : q2.natAbs < 2 ^ 53 := by norm_num only; omega
  rw [ofInt_exact q1 hq1, ofInt_exact q2 hq2]
  have hq : q1 ≤ q2 := by omega
  rcases eq_or_lt_of_le hq with heq | hlt
  · have hr : r1 ≤ r2 := by omega
    have := fraction_mono r1 r2 hr
    rw [heq]
    linarith
  · have hq' : (q1 : ℚ) + 1 ≤ (q2 : ℚ) := by exact_mod_cast hlt
    rcases le_or_lt 0 d1 with s1 | s1
    · -- both durations are non-negative
      have a1 := fraction_mono r1 3600000000000 (by omega)
      have a2 := fraction_mono 0 r2 (by omega)
      rw [f1] at a1
      rw [f0] at a2
      linarith
    · rcases le_or_lt 0 d2 with s2 | s2
      · have a1 := fraction_mono r1 0 (by omega)
        have a2 := fraction_mono 0 r2 (by omega)
        rw [f0] at a1 a2
        linarith
      · have a1 := fraction_mono r1 0 (by omega)
        have a2 := fraction_mono (-3600000000000) r2 (by omega)
        rw [f0] at a1
        rw [fm1] at a2
        linarith

set_option maxRecDepth 100000 in
theorem dayConst_eq : F64.ofInt 24 = ⟨6755399441055744, -48⟩ := by decide

/-- The age in days is monotone in the reference time. -/
theorem dateDiff_mono (t1 t2 d : Time) (h : t1.unixNano ≤ t2.unixNano) :
    dateDiff t1 d ≤ dateDiff t2 d := by
  unfold dateDiff
  apply toInt_mono
  apply div_mono
  · rw [dayConst_eq]
    decide
  · exact Hours_mono _ _ (Sub_mono t1 t2 d h) (Sub_range t1 d).1 (Sub_range t2 d).2

set_option maxRecDepth 100000 in
theorem dateDiff_self (d : Time) : dateDiff d d = 0 := by
  unfold dateDiff
  rw [Sub_self]
  decide

/-- A date that is not earlier than the reference time has an age of at most zero days. -/
theorem dateDiff_nonpos (now d : Time) (h : now.unixNano ≤ d.unixNano) : dateDiff now d ≤ 0 := by
  have := dateDiff_mono now d d h
  rw [dateDiff_self] at this
  exact this

theorem dyadic_as_ratio (m e : Int) :
    (((m * 2 ^ e.toNat : Int) : ℚ)) / ((2 ^ (-e).toNat : Nat) : ℚ) = (m : ℚ) * (2 : ℚ) ^ e := by
  rw [two_zpow_split e]
  push_cast
  ring

/-- Rounding stays below a binary64 value that bounds the argument. -/
theorem round_le_of_le (n : Int) (d : Nat) (m e : Int) (hd : 0 < d)
    (h : (n : ℚ) / d ≤ (m : ℚ) * (2 : ℚ) ^ e) (hm : m.natAbs < 2 ^ 53) (he : -1074 ≤ e) :
    F64.toRat (F64.round n d) ≤ (m : ℚ) * (2 : ℚ) ^ e := by
  have hx := round_exact (m * 2 ^ e.toNat) (2 ^ (-e).toNat) m e (by positivity)
    (dyadic_as_ratio m e) hm he
  rw [← hx]
  apply round_mono_rat _ _ _ _ hd (by positivity)
  rw [dyadic_as_ratio]
  exact h

/-- Rounding stays above a binary64 value that bounds the argument. -/
theorem le_round_of_le (n : Int) (d : Nat) (m e : Int) (hd : 0 < d)
    (h : (m : ℚ) * (2 : ℚ) ^ e ≤ (n : ℚ) / d) (hm : m.natAbs < 2 ^ 53) (he : -1074 ≤ e) :
    (m : ℚ) * (2 : ℚ) ^ e ≤ F64.toRat (F64.round n d) := by
  have hx := round_exact (m * 2 ^ e.toNat) (2 ^ (-e).toNat) m e (by positivity)
    (dyadic_as_ratio m e) hm he
  rw [← hx]
  apply round_mono_rat _ _ _ _ (by positivity) hd
  rw [dyadic_as_ratio]
  exact h

set_option maxRecDepth 100000 in
theorem fraction_last_second :
    F64.toRat (F64.div (F64.ofInt 3599000000000) (F64.ofInt (60 * 60 * 1000000000))) ≤
      1 - 1 / 2 ^ 20 := by
  have h : F64.div (F64.ofInt 3599000000000) (F64.ofInt (60 * 60 * 1000000000)) =
      ⟨9004697254948008, -53⟩ := by decide
  rw [h]
  norm_num [F64.toRat]

theorem toRat_dayConst : F64.toRat (F64.ofInt 24) = 24 := by
  rw [dayConst_eq]
  norm_num [F64.toRat]

theorem Hours_eq (d : Int) :
    Hours d = F64.add (F64.ofInt (Int.tdiv d Hour))
      (F64.div (F64.ofInt (Int.tmod d Hour)) (F64.ofInt (60 * 60 * 1000000000))) := rfl

/-- On a non-negative elapsed time of whole seconds within the range of a duration, the age in
days is the quotient of the elapsed time by 24 hours, without its fractional part. -/
theorem dateDiff_whole_seconds (t u : Time) (h0 : 0 ≤ t.unixNano - u.unixNano)
    (hmax : t.unixNano - u.unixNano ≤ maxDuration)
    (hs : (t.unixNano - u.unixNano) % 1000000000 = 0) :
    dateDiff t u = (t.unixNano - u.unixNano) / (24 * 3600000000000) := by
  have hsub : t.Sub u = t.unixNano - u.unixNano := by
    rw [Sub_eq]
    unfold minDuration maxDuration at *
    norm_num only at hmax ⊢
    split_ifs <;> omega
  unfold maxDuration at hmax
  norm_num only at hmax
  unfold dateDiff
  rw [hsub]
  generalize t.unixNano - u.unixNano = d at *
  obtain ⟨f0, -, -⟩ := fraction_values
  -- quotient and remainder
  have c := tdiv_tmod_Hour d
  have hq : Int.tdiv d Hour = d / 3600000000000 := by omega
  have hr : Int.tmod d Hour = d % 3600000000000 := by omega
  generalize hK : d / (24 * 3600000000000) = K
  have hK0 : 0 ≤ K := by omega
  have hKmax : K < 131072 := by omega
  have hhour1 : 24 * K ≤ d / 3600000000000 := by omega
  have hhour2 : d / 3600000000000 ≤ 24 * K + 23 := by omega
  have hnsec1 : 0 ≤ d % 3600000000000 := by omega
  have hnsec2 : d % 3600000000000 ≤ 3599000000000 := by omega
  rw [Hours_eq, hq, hr]
  generalize d / 3600000000000 = hour at *
  generalize d % 3600000000000 = nsec at *
  -- the value of `Hours`
  have hfrac0 := fraction_mono 0 nsec hnsec1
  rw [f0] at hfrac0
  have hfrac1 := le_trans (fraction_mono nsec 3599000000000 hnsec2) fraction_last_second
  have hhourx : F64.toRat (F64.ofInt hour) = (hour : ℚ) :=
    ofInt_exact _ (by norm_num only; omega)
  have hh1q : (24 : ℚ) * (K : ℚ) ≤ (hour : ℚ) := by exact_mod_cast hhour1
  have hh2q : (hour : ℚ) ≤ 24 * (K : ℚ) + 23 := by exact_mod_cast hhour2
  have key0 : ((24 * K : Int) : ℚ) * (2 : ℚ) ^ (0 : Int) = 24 * (K : ℚ) := by
    push_cast
    simp
  have key20 : ((24 * (K + 1) * 1048576 - 1 : Int) : ℚ) * (2 : ℚ) ^ (-20 : Int) =
      24 * (K : ℚ) + 24 - 1 / 2 ^ 20 := by
    push_cast
    norm_num
    ring
  have keyK : ((K : Int) : ℚ) * (2 : ℚ) ^ (0 : Int) = (K : ℚ) := by simp
  have key25 : (((K + 1) * 33554432 - 1 : Int) : ℚ) * (2 : ℚ) ^ (-25 : Int) =
      (K : ℚ) + 1 - 1 / 2 ^ 25 := by
    push_cast
    norm_num
    ring
  generalize hH : F64.add (F64.ofInt hour)
    (F64.div (F64.ofInt nsec) (F64.ofInt (60 * 60 * 1000000000))) = H
  have hlow : ((24 * K : Int) : ℚ) * (2 : ℚ) ^ (0 : Int) ≤ F64.toRat H := by
    rw [← hH, toRat_add]
    apply le_round_of_le _ _ _ _ (by positivity) _ (by norm_num only; omega) (by omega)
    rw [add_arg, hhourx, key0]
    linarith
  have hup : F64.toRat H ≤
      ((24 * (K + 1) * 1048576 - 1 : Int) : ℚ) * (2 : ℚ) ^ (-20 : Int) := by
    rw [← hH, toRat_add]
    apply round_le_of_le _ _ _ _ (by positivity) _ (by norm_num only; omega) (by omega)
    rw [add_arg, hhourx, key20]
    linarith
  rw [key0] at hlow
  rw [key20] at hup
  -- the quotient by 24
  have hm24 : (F64.ofInt 24).m ≠ 0 := by rw [dayConst_eq]; decide
  have hd24 : 0 < (F64.ofInt 24).m.natAbs * 2 ^ (-(H.e - (F64.ofInt 24).e)).toNat := by
    rw [dayConst_eq]
    positivity
  have hqlow : ((K : Int) : ℚ) * (2 : ℚ) ^ (0 : Int) ≤
      F64.toRat (F64.div H (F64.ofInt 24)) := by
    rw [toRat_div]
    apply le_round_of_le _ _ _ _ hd24 _ (by norm_num only; omega) (by omega)
    rw [div_arg _ _ hm24, toRat_dayConst, le_div_iff₀ (by norm_num), keyK]
    linarith
  have hqup : F64.toRat (F64.div H (F64.ofInt 24)) ≤
      (((K + 1) * 33554432 - 1 : Int) : ℚ) * (2 : ℚ) ^ (-25 : Int) := by
    rw [toRat_div]
    apply round_le_of_le _ _ _ _ hd24 _ (by norm_num only; omega) (by omega)
    rw [div_arg _ _ hm24, toRat_dayConst, div_le_iff₀ (by norm_num), key25]
    have : (24 : ℚ) * (1 / 2 ^ 25) ≤ 1 / 2 ^ 20 := by norm_num
    linarith
  -- the conversion to an integer
  have t1 := toInt_mono ⟨K, 0⟩ _ hqlow
  have t2 := toInt_mono _ ⟨(K + 1) * 33554432 - 1, -25⟩ hqup
  have v1 : F64.toInt ⟨K, 0⟩ = K := by
    simp [F64.toInt]
  have v2 : F64.toInt ⟨(K + 1) * 33554432 - 1, -25⟩ = K := by
    have e1 : F64.toInt ⟨(K + 1) * 33554432 - 1, -25⟩ =
        Int.tdiv ((K + 1) * 33554432 - 1) 33554432 := by
      simp [F64.toInt]
    rw [e1, Int.tdiv_eq_ediv (by omega) (by omega)]
    omega
  rw [v1] at t1
  rw [v2] at t2
  omega

/-! ## Order and multiplicity of the appended paths -/

/-- A selection that is finer than another one gives a sublist. -/
theorem filterMap_sublist_of_imp {α β : Type} (f g : α → Option β)
    (h : ∀ a b, f a = some b → g a = some b) (l : List α) :
    (l.filterMap f).Sublist (l.filterMap g) := by
  induction l with
  | nil => exact List.Sublist.slnil
  | cons a l ih =>
    cases hf : f a with
    | none =>
      rw [List.filterMap_cons_none hf]
      cases hg : g a with
      | none => rw [List.filterMap_cons_none hg]; exact ih
      | some c => rw [List.filterMap_cons_some hg]; exact List.Sublist.cons _ ih
    | some b =>
      rw [List.filterMap_cons_some hf, List.filterMap_cons_some (h a b hf)]
      exact List.Sublist.cons₂ _ ih

theorem expiredPath_path (pol : RetentionMap) (now : Time) (ev : Event) (q : String)
    (h : ev.expiredPath pol now = some q) : ev.path = some q := by
  cases ev with
  | emptyName => simp [Event.expiredPath] at h
  | evaluate p c y m d =>
    simp only [Event.expiredPath] at h
    split at h
    · cases h
    · split_ifs at h
      exact h

theorem mem_paths_events {fs : FileSystem} {k : Nat} {topDir : String} {names : List String}
    {q : String} (h : q ∈ (events fs k topDir names).filterMap Event.path) :
    ∃ more : List String, more.length = k ∧ Reach fs topDir more ∧ q = joinPath topDir more := by
  obtain ⟨ev, hmem, hpath⟩ := List.mem_filterMap.mp h
  cases ev with
  | emptyName => simp [Event.path] at hpath
  | evaluate p c y m d =>
    simp only [Event.path, Option.some.injEq] at hpath
    subst hpath
    obtain ⟨more, hlen, hreach, hq, _⟩ := (evaluate_mem_events fs k _ _ _ _ _ _ _).mp hmem
    exact ⟨more, hlen, hreach, hq⟩

/-- With distinct names free of `/` in every listing, no path is evaluated twice. -/
theorem paths_events_nodup {fs : FileSystem} (hns : NoSlash fs) (hdn : DistinctNames fs)
    (k : Nat) : ∀ (topDir : String) (names : List String),
      ((events fs k topDir names).filterMap Event.path).Nodup := by
  induction k with
  | zero =>
    intro topDir names
    simp [events, Event.path]
  | succ k ih =>
    intro topDir names
    simp only [events]
    cases hfs : fs topDir with
    | none => simp
    | some dirs =>
      simp only [List.filterMap_flatMap]
      rw [List.nodup_flatMap]
      constructor
      · intro e _
        cases e.name.data with
        | nil => simp [Event.path]
        | cons c cs =>
          simp only
          split_ifs
          · simp
          · exact ih _ _
      · have hpw : List.Pairwise (fun a b : DirEntry => a.name ≠ b.name) dirs :=
          List.pairwise_map.mp (hdn topDir dirs hfs)
        have hsl : ∀ e ∈ dirs, '/' ∉ e.name.data := hns topDir dirs hfs
        clear hfs
        induction dirs with
        | nil => exact List.Pairwise.nil
        | cons e es ihl =>
          obtain ⟨hhead, htail⟩ := List.pairwise_cons.mp hpw
          refine List.pairwise_cons.mpr ⟨?_, ihl htail (fun x hx => hsl x (List.mem_cons_of_mem _ hx))⟩
          intro e1 he1
          simp only [Function.onFun]
          intro q hq hq1
          have hne := hhead e1 he1
          -- both pieces consist of paths below the entry
          have piece : ∀ x : DirEntry, q ∈ List.filterMap Event.path
              (match x.name.data with
                | [] => [Event.emptyName]
                | c :: _ => if c = '.' then []
                  else events fs k (topDir ++ "/" ++ x.name) (names ++ [x.name])) →
              ∃ more, Reach fs (topDir ++ "/" ++ x.name) more ∧
                q = joinPath topDir (x.name :: more) := by
            intro x hx
            cases hd : x.name.data with
            | nil => rw [hd] at hx; simp [Event.path] at hx
            | cons c cs =>
              rw [hd] at hx
              simp only at hx
              split_ifs at hx
              · simp at hx
              · obtain ⟨more, _, hreach, hqm⟩ := mem_paths_events hx
                exact ⟨more, hreach, hqm⟩
          obtain ⟨m0, hr0, hq0⟩ := piece e hq
          obtain ⟨m1, hr1, hq1'⟩ := piece e1 hq1
          have hinj := joinPath_injective topDir (e.name :: m0) (e1.name :: m1)
            (by
              intro n hn
              rcases List.mem_cons.mp hn with rfl | hn
              · exact hsl e (List.mem_cons_self _ _)
              · exact hr0.noSlash hns _ _ n hn)
            (by
              intro n hn
              rcases List.mem_cons.mp hn with rfl | hn
              · exact hsl e1 (List.mem_cons_of_mem _ he1)
              · exact hr1.noSlash hns _ _ n hn)
            (by rw [← hq0, ← hq1'])
          injection hinj with h1 _
          exact hne h1

theorem tableFs_distinctNames (table : List (String × List DirEntry))
    (h : ∀ x ∈ table, (x.2.map (fun e => e.name)).Nodup) : DistinctNames (tableFs table) :=
  fun dir dirs hl => h (dir, dirs) (mem_of_lookup hl)

theorem expiredPath_single (pol : RetentionMap) (now : Time) (p c y m d : String) :
    [Event.evaluate p c y m d].filterMap (Event.expiredPath pol now) =
      if expiredAt pol now c y m d = true then [p] else [] := by
  cases hp : timeParse (y ++ "/" ++ m ++ "/" ++ d) with
  | none => simp [Event.expiredPath, expiredAt, hp]
  | some dt =>
    by_cases hexp : dateDiff now dt > lookupRetention pol c
    · simp [Event.expiredPath, expiredAt, hp, hexp]
    · simp [Event.expiredPath, expiredAt, hp, hexp]

/-- The expired leaves, in the order of the walk, are the expired paths in depth-first order. -/
theorem events_expiredBelow (fs : FileSystem) (pol : RetentionMap) (now : Time) (k : Nat) :
    ∀ (topDir : String) (names : List String),
      (events fs k topDir names).filterMap (Event.expiredPath pol now) =
        expiredBelow fs pol now k topDir names := by
  induction k with
  | zero =>
    intro topDir names
    exact expiredPath_single pol now topDir _ _ _ _
  | succ k ih =>
    intro topDir names
    simp only [events, expiredBelow, visibleNames]
    cases fs topDir with
    | none => simp
    | some dirs =>
      simp only [List.filterMap_flatMap, Option.getD_some]
      induction dirs with
      | nil => simp
      | cons e es ihl =>
        simp only [List.flatMap_cons, List.map_cons, List.filter_cons, ihl]
        cases hd : e.name.data with
        | nil =>
          have hv : visibleName e.name = false := by simp [visibleName, hd]
          simp [hv, Event.expiredPath]
        | cons c cs =>
          by_cases hc : c = '.'
          · have hv : visibleName e.name = false := by simp [visibleName, hd, hc]
            simp [hv, hc]
          · have hv : visibleName e.name = true := by simp [visibleName, hd, hc]
            simp only [hv, hc, if_true, if_false, List.flatMap_cons, ih]

/-- A reached path that is new to the list is in it afterwards exactly when its age exceeds the
retention of its tenant. -/
theorem reached_mem_iff {fs : FileSystem} {pol : RetentionMap} {now : Time} {root : String}
    {g g1 : Globals} {t dv y m d : String} {dt : Time} (hns : NoSlash fs)
    (hnew : joinPath root [t, dv, y, m, d] ∉ g.dirsToBeDeleted)
    (hrun : determineFilesToBeDeleted fs pol now root g = .ok g1)
    (hreach : Reach fs root [t, dv, y, m, d])
    (hdt : timeParse (y ++ "/" ++ m ++ "/" ++ d) = some dt) :
    joinPath root [t, dv, y, m, d] ∈ g1.dirsToBeDeleted ↔
      dateDiff now dt > lookupRetention pol t := by
  obtain ⟨_, hdirs⟩ := determineFilesToBeDeleted_ok hrun
  have hev : Event.evaluate (joinPath root [t, dv, y, m, d]) t y m d ∈ events fs 5 root [] :=
    (evaluate_mem_events_five fs root _ t y m d).mpr ⟨t, dv, hreach, rfl, rfl⟩
  rw [hdirs, List.mem_append, List.mem_filterMap]
  constructor
  · rintro (hold | ⟨ev, hmem, hpath⟩)
    · exact absurd hold hnew
    · cases ev with
      | emptyName => simp [Event.expiredPath] at hpath
      | evaluate q c y1 m1 d1 =>
        obtain ⟨t1, dv1, hreach1, hq, hc⟩ := (evaluate_mem_events_five fs root _ _ _ _ _).mp hmem
        simp only [Event.expiredPath] at hpath
        split at hpath
        · cases hpath
        · rename_i dt1 hdt1
          split_ifs at hpath with hexp
          injection hpath with hpath
          rw [hq] at hpath
          have hnames := joinPath_injective root _ _ (hreach1.noSlash hns _ _)
            (hreach.noSlash hns _ _) hpath
          simp only [List.cons.injEq, and_true] at hnames
          obtain ⟨ht, -, hy, hm, hd⟩ := hnames
          subst ht hy hm hd hc
          rw [hdt] at hdt1
          injection hdt1 with hdt1
          rw [hdt1]
          exact hexp
  · intro hexp
    refine Or.inr ⟨_, hev, ?_⟩
    simp [Event.expiredPath, hdt, hexp]

/-- A reached path whose age exceeds the retention of its tenant is in the list afterwards. -/
theorem reached_mem_of_expired {fs : FileSystem} {pol : RetentionMap} {now : Time}
    {root : String} {g g1 : Globals} {t dv y m d : String} {dt : Time}
    (hrun : determineFilesToBeDeleted fs pol now root g = .ok g1)
    (hreach : Reach fs root [t, dv, y, m, d])
    (hdt : timeParse (y ++ "/" ++ m ++ "/" ++ d) = some dt)
    (hexp : dateDiff now dt > lookupRetention pol t) :
    joinPath root [t, dv, y, m, d] ∈ g1.dirsToBeDeleted := by
  obtain ⟨_, hdirs⟩ := determineFilesToBeDeleted_ok hrun
  have hev : Event.evaluate (joinPath root [t, dv, y, m, d]) t y m d ∈ events fs 5 root [] :=
    (evaluate_mem_events_five fs root _ t y m d).mpr ⟨t, dv, hreach, rfl, rfl⟩
  rw [hdirs, List.mem_append, List.mem_filterMap]
  refine Or.inr ⟨_, hev, ?_⟩
  simp [Event.expiredPath, hdt, hexp]

/-- An elapsed time of at least 24 hours is an age of at least one day. -/
theorem one_le_dateDiff (now dt : Time) (h : 24 * Hour ≤ now.unixNano - dt.unixNano) :
    1 ≤ dateDiff now dt := by
  unfold Hour at h
  have h1 : dateDiff ⟨dt.unixNano + 24 * 3600000000000⟩ dt = 1 := by
    rw [dateDiff_whole_seconds _ _ (by simp) (by unfold maxDuration; simp) (by simp)]
    simp
  have h2 := dateDiff_mono ⟨dt.unixNano + 24 * 3600000000000⟩ now dt (by simp only; omega)
  omega

/-- A leaf that is expired at a reference time is expired at every later reference time. -/
theorem expiredPath_mono (pol : RetentionMap) (t1 t2 : Time) (h : t1.unixNano ≤ t2.unixNano)
    (ev : Event) (q : String) (hq : ev.expiredPath pol t1 = some q) :
    ev.expiredPath pol t2 = some q := by
  cases ev with
  | emptyName => simp [Event.expiredPath] at hq
  | evaluate p c y m d =>
    simp only [Event.expiredPath] at hq ⊢
    cases hp : timeParse (y ++ "/" ++ m ++ "/" ++ d) with
    | none => rw [hp] at hq; cases hq
    | some dt =>
      rw [hp] at hq
      simp only at hq ⊢
      split_ifs at hq with hexp
      have := dateDiff_mono t1 t2 dt h
      have hexp2 : dateDiff t2 dt > lookupRetention pol c := by omega
      simp only [hexp2, if_true]
      exact hq

theorem recentFs_reach : Reach recentFs "/data" ["acme", "dev1", "2023", "12", "31"] :=
  ⟨⟨by decide, _, rfl, ⟨"acme", true⟩, by decide, rfl⟩,
    ⟨by decide, _, rfl, ⟨"dev1", true⟩, by decide, rfl⟩,
    ⟨by decide, _, rfl, ⟨"2023", true⟩, by decide, rfl⟩,
    ⟨by decide, _, rfl, ⟨"12", true⟩, by decide, rfl⟩,
    ⟨by decide, _, rfl, ⟨"31", true⟩, by decide, rfl⟩, trivial⟩

set_option maxRecDepth 100000 in
theorem recentFs_run :
    determineFilesToBeDeleted recentFs emptyPolicy exampleNow "/data" initGlobals =
      .ok recentEnd := by
  decide

set_option maxRecDepth 100000 in
theorem exampleFs_run_later :
    determineFilesToBeDeleted exampleFs examplePolicy boundaryNow "/data" initGlobals =
      .ok exampleEndLater := by
  decide

theorem twoTenantFs_reach (t : String) (h : t = "high" ∨ t = "low") :
    Reach twoTenantFs "/data" [t, "dev1", "2023", "12", "22"] := by
  rcases h with rfl | rfl
  · exact ⟨⟨by decide, _, rfl, ⟨"high", true⟩, by decide, rfl⟩,
      ⟨by decide, _, rfl, ⟨"dev1", true⟩, by decide, rfl⟩,
      ⟨by decide, _, rfl, ⟨"2023", true⟩, by decide, rfl⟩,
      ⟨by decide, _, rfl, ⟨"12", true⟩, by decide, rfl⟩,
      ⟨by decide, _, rfl, ⟨"22", true⟩, by decide, rfl⟩, trivial⟩
  · exact ⟨⟨by decide, _, rfl, ⟨"low", true⟩, by decide, rfl⟩,
      ⟨by decide, _, rfl, ⟨"dev1", true⟩, by decide, rfl⟩,
      ⟨by decide, _, rfl, ⟨"2023", true⟩, by decide, rfl⟩,
      ⟨by decide, _, rfl, ⟨"12", true⟩, by decide, rfl⟩,
      ⟨by decide, _, rfl, ⟨"22", true⟩, by decide, rfl⟩, trivial⟩

set_option maxRecDepth 100000 in
theorem twoTenantFs_run :
    determineFilesToBeDeleted twoTenantFs lowHighPolicy exampleNow "/data" initGlobals =
      .ok twoTenantEnd := by
  decide

theorem twoTenantFs_noSlash : NoSlash twoTenantFs :=
  tableFs_noSlash _ (by decide)

set_option maxRecDepth 100000 in
theorem example_ages :
    timeParse ("2020" ++ "/" ++ "1" ++ "/" ++ "15") = some (Date 2020 1 15) ∧
    timeParse ("2024" ++ "/" ++ "1" ++ "/" ++ "1") = some (Date 2024 1 1) ∧
    timeParse ("2023" ++ "/" ++ "12" ++ "/" ++ "22") = some (Date 2023 12 22) ∧
    dateDiff exampleNow (Date 2020 1 15) = 1447 ∧
    dateDiff exampleNow (Date 2024 1 1) = 0 ∧
    dateDiff exampleNow (Date 2023 12 22) = 10 := by
  refine ⟨by decide, by decide, by decide, by decide, by decide, by decide⟩

/-! ## The claims -/

/-- **C1.** On every file system (entry names without `/`), policy and reference time on which
`determineFilesToBeDeleted` returns, and for every path `root/t/dv/y/m/d` whose five names are
visible entries of listable directories and which was not in `dirsToBeDeleted` before: the date
`y/m/d` parses, and the path is in `dirsToBeDeleted` afterwards if and only if
`dateDiff(currentDate, parse(y/m/d)) > r`, where `r` is the value of the policy for `t` when `t`
is a key, and the value of the policy for `"default"` when `t` is not a key (and 0 when
`"default"` is not a key either); so an age equal to that retention does not expire.  The
retention is the one line 119-122 compute, `lookupRetention`. -/
theorem C1_expired_iff_age_exceeds_retention (fs : FileSystem) (pol : RetentionMap) (now : Time)
    (root : String) (g g1 : Globals) (t dv y m d : String) (hns : NoSlash fs)
    (hnew : joinPath root [t, dv, y, m, d] ∉ g.dirsToBeDeleted)
    (hrun : determineFilesToBeDeleted fs pol now root g = .ok g1)
    (hreach : Reach fs root [t, dv, y, m, d]) :
    ∃ dt, timeParse (y ++ "/" ++ m ++ "/" ++ d) = some dt ∧
      (∀ r, pol t = some r →
        ((joinPath root [t, dv, y, m, d] ∈ g1.dirsToBeDeleted ↔ dateDiff now dt > r) ∧
          (dateDiff now dt = r → joinPath root [t, dv, y, m, d] ∉ g1.dirsToBeDeleted))) ∧
      (pol t = none → ∀ r, pol "default" = some r →
        ((joinPath root [t, dv, y, m, d] ∈ g1.dirsToBeDeleted ↔ dateDiff now dt > r) ∧
          (dateDiff now dt = r → joinPath root [t, dv, y, m, d] ∉ g1.dirsToBeDeleted))) ∧
      (pol t = none → pol "default" = none →
        (joinPath root [t, dv, y, m, d] ∈ g1.dirsToBeDeleted ↔ dateDiff now dt > 0)) ∧
      (joinPath root [t, dv, y, m, d] ∈ g1.dirsToBeDeleted ↔
        dateDiff now dt > lookupRetention pol t) ∧
      (dateDiff now dt = lookupRetention pol t →
        joinPath root [t, dv, y, m, d] ∉ g1.dirsToBeDeleted) := by
  obtain ⟨hparse, _⟩ := determineFilesToBeDeleted_ok hrun
  have hev : Event.evaluate (joinPath root [t, dv, y, m, d]) t y m d ∈ events fs 5 root [] :=
    (evaluate_mem_events_five fs root _ t y m d).mpr ⟨t, dv, hreach, rfl, rfl⟩
  have hp := hparse _ hev
  simp only [Event.parses, Option.isSome_iff_exists] at hp
  obtain ⟨dt, hdt⟩ := hp
  have hiff := reached_mem_iff hns hnew hrun hreach hdt
  have hbound : ∀ r : Int, (joinPath root [t, dv, y, m, d] ∈ g1.dirsToBeDeleted ↔
      dateDiff now dt > r) → dateDiff now dt = r →
      joinPath root [t, dv, y, m, d] ∉ g1.dirsToBeDeleted :=
    fun r hr heq hmem => absurd (hr.mp hmem) (by rw [heq]; exact lt_irrefl _)
  refine ⟨dt, hdt, ?_, ?_, ?_, hiff, hbound _ hiff⟩
  · intro r hr
    have hl : lookupRetention pol t = r := by simp [lookupRetention, hr]
    rw [hl] at hiff
    exact ⟨hiff, hbound r hiff⟩
  · intro hnone r hr
    have hl : lookupRetention pol t = r := by simp [lookupRetention, hnone, hr]
    rw [hl] at hiff
    exact ⟨hiff, hbound r hiff⟩
  · intro hnone hdef
    have hl : lookupRetention pol t = 0 := by simp [lookupRetention, hnone, hdef]
    rw [hl] at hiff
    exact hiff

/-- Witness of C1.  At the reference time 2024-01-01: `/data/acme/dev1/2020/1/15` (1447 days old)
is expired under `{acme: 30, default: 7}`; `/data/acme/dev1/2024/1/1` (0 days old) is not expired
under `{default: 7}`; and of the two tenants of `twoTenantFs`, both with the day directory
2023/12/22 (10 days old), under `{low: 1, default: 365}` the directory of `low` is expired and the
one of `high`, which has no entry in the policy, is not. -/
theorem C1_expired_iff_age_exceeds_retention_witness :
    joinPath "/data" ["acme", "dev1", "2020", "1", "15"] ∈ exampleEnd.dirsToBeDeleted ∧
    joinPath "/data" ["acme", "dev1", "2024", "1", "1"] ∉ exampleEnd.dirsToBeDeleted ∧
    determineFilesToBeDeleted twoTenantFs lowHighPolicy exampleNow "/data" initGlobals =
      .ok twoTenantEnd ∧
    joinPath "/data" ["low", "dev1", "2023", "12", "22"] ∈ twoTenantEnd.dirsToBeDeleted ∧
    joinPath "/data" ["high", "dev1", "2023", "12", "22"] ∉ twoTenantEnd.dirsToBeDeleted := by
  obtain ⟨p1, p2, p3, a1, a2, a3⟩ := example_ages
  refine ⟨?_, ?_, twoTenantFs_run, ?_, ?_⟩
  · obtain ⟨dt, hdt, hkey, -, -, -, -⟩ :=
      C1_expired_iff_age_exceeds_retention exampleFs examplePolicy exampleNow "/data"
        initGlobals exampleEnd "acme" "dev1" "2020" "1" "15" exampleFs_noSlash (by decide)
        exampleFs_run exampleFs_reach_acme_2020
    rw [p1] at hdt
    injection hdt with hdt
    subst hdt
    exact (hkey 30 (by decide)).1.mpr (by rw [a1]; decide)
  · obtain ⟨dt, hdt, -, hdefault, -, -, -⟩ :=
      C1_expired_iff_age_exceeds_retention exampleFs defaultOnlyPolicy exampleNow "/data"
        initGlobals exampleEnd "acme" "dev1" "2024" "1" "1" exampleFs_noSlash (by decide)
        exampleFs_run_defaultOnly exampleFs_reach_acme_2024
    rw [p2] at hdt
    injection hdt with hdt
    subst hdt
    intro hmem
    have := (hdefault (by decide) 7 (by decide)).1.mp hmem
    rw [a2] at this
    exact absurd this (by decide)
  · obtain ⟨dt, hdt, hkey, -, -, -, -⟩ :=
      C1_expired_iff_age_exceeds_retention twoTenantFs lowHighPolicy exampleNow "/data"
        initGlobals twoTenantEnd "low" "dev1" "2023" "12" "22" twoTenantFs_noSlash (by decide)
        twoTenantFs_run (twoTenantFs_reach "low" (Or.inr rfl))
    rw [p3] at hdt
    injection hdt with hdt
    subst hdt
    exact (hkey 1 (by decide)).1.mpr (by rw [a3]; decide)
  · obtain ⟨dt, hdt, -, hdefault, -, -, -⟩ :=
      C1_expired_iff_age_exceeds_retention twoTenantFs lowHighPolicy exampleNow "/data"
        initGlobals twoTenantEnd "high" "dev1" "2023" "12" "22" twoTenantFs_noSlash (by decide)
        twoTenantFs_run (twoTenantFs_reach "high" (Or.inl rfl))
    rw [p3] at hdt
    injection hdt with hdt
    subst hdt
    intro hmem
    have := (hdefault (by decide) 365 (by decide)).1.mp hmem
    rw [a3] at this
    exact absurd this (by decide)

/-- **C2.** Policy resolution at the terminal level: the retention used is the value of the
mapping for `companyId` when `companyId` is a key, and otherwise the value for the key
`"default"`; whether the tenant is known or not, a terminal evaluation whose date parses
returns, with the path appended exactly when the age exceeds that retention. -/
theorem C2_policy_resolution (pol : RetentionMap) (now : Time) (topDir : String) (g : Globals) :
    (∀ v, pol g.companyId = some v → lookupRetention pol g.companyId = v) ∧
    (pol g.companyId = none → ∀ v, pol "default" = some v →
      lookupRetention pol g.companyId = v) ∧
    (∀ dt, timeParse (g.year ++ "/" ++ g.month ++ "/" ++ g.date) = some dt →
      evalTerminal pol now topDir g =
        .ok (if dateDiff now dt > lookupRetention pol g.companyId then
          { g with dirsToBeDeleted := g.dirsToBeDeleted ++ [topDir] } else g)) := by
  refine ⟨fun v hv => by simp [lookupRetention, hv],
    fun hnone v hv => by simp [lookupRetention, hnone, hv], fun dt hdt => ?_⟩
  simp only [evalTerminal, hdt]
  split_ifs <;> rfl

/-- **C3.** When the walk reaches a depth-5 entry `root/t/dv/y/m/d` (five visible names of
listable directories) whose `y/m/d` does not parse in the layout `"2006/1/2"`, the run aborts and
returns no list, whatever the policy and whatever was found before; when no listing holds an
empty name the abort is the fatal error of the date parse. -/
theorem C3_malformed_date_aborts (fs : FileSystem) (pol : RetentionMap) (now : Time)
    (root : String) (g : Globals) (t dv y m d : String)
    (hreach : Reach fs root [t, dv, y, m, d])
    (hbad : timeParse (y ++ "/" ++ m ++ "/" ++ d) = none) :
    (∃ a, determineFilesToBeDeleted fs pol now root g = .error a) ∧
      (NonEmptyNames fs →
        determineFilesToBeDeleted fs pol now root g = .error Abort.fatalDateParse) := by
  have hev : Event.evaluate (joinPath root [t, dv, y, m, d]) t y m d ∈ events fs 5 root [] :=
    (evaluate_mem_events_five fs root _ t y m d).mpr ⟨t, dv, hreach, rfl, rfl⟩
  have hm := determineFilesToBeDeleted_events fs pol now root g
  obtain ⟨a, ha⟩ := runEvents_error pol now _ _ hev (by simp [Event.parses, hbad])
    g.dirsToBeDeleted
  rw [ha] at hm
  have hrun : determineFilesToBeDeleted fs pol now root g = .error a := by
    cases hr : determineFilesToBeDeleted fs pol now root g with
    | error b => rw [hr] at hm; simp only [dirsOf] at hm; injection hm with hm; rw [hm]
    | ok g1 => rw [hr] at hm; simp [dirsOf] at hm
  refine ⟨⟨a, hrun⟩, fun hne => ?_⟩
  rw [hrun, runEvents_error_kind (emptyName_not_mem_events hne 5 root []) ha]

/-- Witness of C3: the day name `1x` after the expired day `15`; the run ends in the fatal error
of the date parse. -/
theorem C3_malformed_date_aborts_witness :
    determineFilesToBeDeleted malformedFs examplePolicy exampleNow "/data" initGlobals =
      .error Abort.fatalDateParse :=
  (C3_malformed_date_aborts malformedFs examplePolicy exampleNow "/data" initGlobals
    "acme" "dev1" "2020" "1" "1x" malformedFs_reach (by decide)).2
    (tableFs_nonEmptyNames _ (by decide))

/-- **C4.** Hidden entries are skipped at every depth 1 to 5.  Let `fs1` show, in every directory
the walk on `fs` lists, the same names not beginning with `.` as `fs` (so `fs1` may be `fs`
without its hidden entries and what lies beneath them).  Then the run on `fs` has the same
outcome as the run on `fs1`; at every call of the helper and at the return, each of `companyId`,
`year`, `month`, `date` has its initial value or a name that does not begin with `.`; every
appended path is the root followed by five names none of which begins with `.`; and an abort is
caused by an entry that is not hidden: a chain of five visible names whose date does not parse,
or an empty name. -/
theorem C4_hidden_entries_skipped (fs fs1 : FileSystem) (pol : RetentionMap) (now : Time)
    (root : String) (g : Globals)
    (hsame : ∀ names : List String, names.length < 5 → Reach fs root names →
      shownNames fs (joinPath root names) = shownNames fs1 (joinPath root names)) :
    determineFilesToBeDeleted fs pol now root g = determineFilesToBeDeleted fs1 pol now root g ∧
    (∀ names g1, Invoked fs pol now root g names g1 → NoHiddenStored g g1) ∧
    (∀ g1, determineFilesToBeDeleted fs pol now root g = .ok g1 →
      NoHiddenStored g g1 ∧
      ∃ added, g1.dirsToBeDeleted = g.dirsToBeDeleted ++ added ∧
        ∀ q ∈ added, ∃ t dv y m d, q = joinPath root [t, dv, y, m, d] ∧
          ∀ n ∈ [t, dv, y, m, d], hiddenName n = false) ∧
    (∀ a, determineFilesToBeDeleted fs pol now root g = .error a →
      (∃ t dv y m d, Reach fs root [t, dv, y, m, d] ∧ (∀ n ∈ [t, dv, y, m, d], hiddenName n = false) ∧
        timeParse (y ++ "/" ++ m ++ "/" ++ d) = none) ∨ ¬ NonEmptyNames fs) := by
  refine ⟨determineFilesToBeDeleted_congr fs fs1 pol now root g hsame,
    fun names g1 h => h.noHiddenStored, fun g1 h => ⟨?_, ?_⟩, fun a h => ?_⟩
  · exact walkLevels_noHiddenStored fs pol now g 5 root 1 g g1 h
      ⟨Or.inl rfl, Or.inl rfl, Or.inl rfl, Or.inl rfl⟩
  · obtain ⟨added, hadd, hq⟩ := determineFilesToBeDeleted_appended h
    refine ⟨added, hadd, fun q hmem => ?_⟩
    obtain ⟨t, dv, y, m, d, hreach, hpath⟩ := hq q hmem
    exact ⟨t, dv, y, m, d, hpath,
      fun n hn => hiddenName_of_visibleName (hreach.visible _ _ n hn)⟩
  · rcases determineFilesToBeDeleted_error h with ⟨t, dv, y, m, d, hreach, hbad⟩ | hne
    · exact Or.inl ⟨t, dv, y, m, d, hreach,
        fun n hn => hiddenName_of_visibleName (hreach.visible _ _ n hn), hbad⟩
    · exact Or.inr hne

/-- Witness of C4: `exampleFs` and `exampleFs` without its hidden entries `.snapshot` (depth 1)
and `.tmp` (depth 5, not a date). -/
theorem C4_hidden_entries_skipped_witness :
    determineFilesToBeDeleted exampleFs examplePolicy exampleNow "/data" initGlobals =
      determineFilesToBeDeleted (removeHidden exampleFs) examplePolicy exampleNow "/data"
        initGlobals ∧
    determineFilesToBeDeleted exampleFs examplePolicy exampleNow "/data" initGlobals =
      .ok exampleEnd :=
  ⟨(C4_hidden_entries_skipped exampleFs (removeHidden exampleFs) examplePolicy exampleNow "/data"
    initGlobals (fun _ _ _ => shownNames_removeHidden exampleFs _)).1, exampleFs_run⟩

/-- **C5.** When the listing of `p` fails, the run has the same outcome as on the file system in
which `p` is an empty directory, so the failure does not abort the run and the other branches are
evaluated as before; every appended path is the root followed by five names whose ancestors at
depth 0 to 4 all differ from `p`; and when entry names hold no `/` and `p` is the root followed by
at most four such names, no appended path lies beneath `p`. -/
theorem C5_unreadable_directory_is_empty (fs : FileSystem) (pol : RetentionMap) (now : Time)
    (root : String) (g : Globals) (p : String) (hfail : fs p = none) :
    determineFilesToBeDeleted fs pol now root g =
      determineFilesToBeDeleted (Function.update fs p (some [])) pol now root g ∧
    (∀ g1, determineFilesToBeDeleted fs pol now root g = .ok g1 →
      ∃ added, g1.dirsToBeDeleted = g.dirsToBeDeleted ++ added ∧
        (∀ q ∈ added, ∃ t dv y m d, q = joinPath root [t, dv, y, m, d] ∧
          ∀ j, j < 5 → joinPath root ([t, dv, y, m, d].take j) ≠ p) ∧
        (NoSlash fs → ∀ names0 : List String, (∀ n ∈ names0, '/' ∉ n.data) →
          names0.length ≤ 4 → p = joinPath root names0 →
          ∀ q ∈ added, ∀ more, q ≠ joinPath p more)) := by
  refine ⟨determineFilesToBeDeleted_congr fs _ pol now root g
    (fun names _ _ => shownNames_update_none fs p hfail _), fun g1 h => ?_⟩
  obtain ⟨added, hadd, hq⟩ := determineFilesToBeDeleted_appended h
  refine ⟨added, hadd, fun q hmem => ?_, fun hns names0 h0 hlen hp q hmem more => ?_⟩
  · obtain ⟨t, dv, y, m, d, hreach, hpath⟩ := hq q hmem
    refine ⟨t, dv, y, m, d, hpath, fun j hj hjp => ?_⟩
    obtain ⟨dirs, hdirs⟩ := hreach.listable _ _ j (by simpa using hj)
    rw [hjp, hfail] at hdirs
    cases hdirs
  · obtain ⟨t, dv, y, m, d, hreach, hpath⟩ := hq q hmem
    rw [hpath]
    exact hreach.not_beneath hns hfail h0 hlen hp rfl more

/-- Witness of C5: `/data/zeta/dev9` cannot be listed in `exampleFsDenied`. -/
theorem C5_unreadable_directory_is_empty_witness :
    exampleFsDenied "/data/zeta/dev9" = none ∧
    determineFilesToBeDeleted exampleFsDenied examplePolicy exampleNow "/data" initGlobals =
      determineFilesToBeDeleted (Function.update exampleFsDenied "/data/zeta/dev9" (some []))
        examplePolicy exampleNow "/data" initGlobals :=
  ⟨by decide, (C5_unreadable_directory_is_empty exampleFsDenied examplePolicy exampleNow "/data"
    initGlobals "/data/zeta/dev9" (by decide)).1⟩

/-- **C6.** The walk never inspects anything below the day level: two file systems whose listings
show the same entry names in the root and in every directory reached through at most four visible
names (they may differ in everything else, in particular in whether a depth-5 entry can be listed
and in what lies beneath it) give, for the same policy, reference time and initial variables, the
same outcome: the same abort or the same variables and list `dirsToBeDeleted`. -/
theorem C6_nothing_below_day_level (fs fs1 : FileSystem) (pol : RetentionMap) (now : Time)
    (root : String) (g : Globals)
    (hagree : ∀ names : List String, names.length ≤ 4 → Reach fs root names →
      (fs (joinPath root names)).map (List.map (fun e => e.name)) =
        (fs1 (joinPath root names)).map (List.map (fun e => e.name))) :
    determineFilesToBeDeleted fs pol now root g = determineFilesToBeDeleted fs1 pol now root g :=
  determineFilesToBeDeleted_congr fs fs1 pol now root g
    (fun names hlen hreach => shownNames_of_names (hagree names (by omega) hreach))

/-- Witness of C6: `exampleFs` and `exampleFsSealed`, which differ in whether the depth-5 entry
`/data/acme/dev1/2020/1/15` can be listed. -/
theorem C6_nothing_below_day_level_witness :
    exampleFs "/data/acme/dev1/2020/1/15" ≠ exampleFsSealed "/data/acme/dev1/2020/1/15" ∧
    determineFilesToBeDeleted exampleFs examplePolicy exampleNow "/data" initGlobals =
      determineFilesToBeDeleted exampleFsSealed examplePolicy exampleNow "/data" initGlobals :=
  ⟨by decide, C6_nothing_below_day_level exampleFs exampleFsSealed examplePolicy exampleNow "/data"
    initGlobals exampleFs_agree_sealed⟩

set_option maxRecDepth 100000 in
/-- **C7.** The age in days is computed in binary64 and is not always the truncated quotient:
for the directory date 2024/1/1 and the reference time 2024-06-19 23:59:59.999999999 UTC the
elapsed time is 171 days less one nanosecond, whose quotient by 24 hours truncates to 170, but
`Hours()` rounds to `4104.0` and `dateDiff` returns 171.  On the three examples of the claim
(47h59m, 48h, a date 12 hours after the reference) `dateDiff` returns 1, 2 and 0. -/
theorem C7_dateDiff_rounds_up_before_day_boundary :
    timeParse "2024/1/1" = some exampleNow ∧
    boundaryNow.Sub exampleNow = 171 * 24 * Hour - 1 ∧
    Int.tdiv (boundaryNow.Sub exampleNow) (24 * Hour) = 170 ∧
    F64.toRat (Hours (boundaryNow.Sub exampleNow)) = 4104 ∧
    dateDiff boundaryNow exampleNow = 171 ∧
    dateDiff ⟨exampleNow.unixNano + 47 * Hour + 59 * 60000000000⟩ exampleNow = 1 ∧
    dateDiff ⟨exampleNow.unixNano + 48 * Hour⟩ exampleNow = 2 ∧
    dateDiff exampleNow ⟨exampleNow.unixNano + 12 * Hour⟩ = 0 := by
  refine ⟨by decide, by decide, by decide, ?_, by decide, by decide, by decide, by decide⟩
  have h : Hours (boundaryNow.Sub exampleNow) = ⟨4512395720392704, -40⟩ := by decide
  rw [h]
  norm_num [F64.toRat]

/-- **C8.** A run on a root directory whose listing is empty returns with the variables, and so
`dirsToBeDeleted`, unchanged, for every policy and reference time; and on every file system
without empty entry names in which no chain of five visible names exists below the root, the run
returns and `dirsToBeDeleted` is unchanged. -/
theorem C8_empty_root (fs : FileSystem) (pol : RetentionMap) (now : Time) (root : String)
    (g : Globals) :
    (fs root = some [] → determineFilesToBeDeleted fs pol now root g = .ok g) ∧
    (NonEmptyNames fs → (∀ t dv y m d, ¬ Reach fs root [t, dv, y, m, d]) →
      ∃ g1, determineFilesToBeDeleted fs pol now root g = .ok g1 ∧
        g1.dirsToBeDeleted = g.dirsToBeDeleted) := by
  constructor
  · intro h
    simp [determineFilesToBeDeleted, determineFilesToBeDeletedHelper, walkLevels, listAndLoop, h,
      rangeLoop]
  · intro hne hnone
    have hnil : events fs 5 root [] = [] := by
      apply List.eq_nil_iff_forall_not_mem.mpr
      intro ev hmem
      cases ev with
      | emptyName => exact emptyName_not_mem_events hne 5 root [] hmem
      | evaluate p c y m d =>
        obtain ⟨t, dv, hreach, _, _⟩ := (evaluate_mem_events_five fs root _ _ _ _ _).mp hmem
        exact hnone t dv y m d hreach
    have hm := determineFilesToBeDeleted_events fs pol now root g
    rw [hnil] at hm
    cases hr : determineFilesToBeDeleted fs pol now root g with
    | error a => rw [hr] at hm; simp [dirsOf, runEvents] at hm
    | ok g1 =>
      rw [hr] at hm
      simp only [dirsOf, runEvents, Except.ok.injEq] at hm
      exact ⟨g1, rfl, hm⟩

/-- Witness of C8: the tenant directory of `shallowFs` is empty and its other entry is hidden. -/
theorem C8_empty_root_witness :
    NonEmptyNames shallowFs ∧ (∀ t dv y m d, ¬ Reach shallowFs "/data" [t, dv, y, m, d]) ∧
    ∃ g1, determineFilesToBeDeleted shallowFs examplePolicy exampleNow "/data" initGlobals =
        .ok g1 ∧ g1.dirsToBeDeleted = initGlobals.dirsToBeDeleted :=
  ⟨tableFs_nonEmptyNames _ (by decide), shallowFs_no_reach,
    (C8_empty_root shallowFs examplePolicy exampleNow "/data" initGlobals).2
      (tableFs_nonEmptyNames _ (by decide)) shallowFs_no_reach⟩

/-- **C9.** At every terminal evaluation the shared variables belong to the path that is
evaluated: whenever, in a run started from any variables `g0`, the helper is called for the path
`root/n1/n2/n3/n4/n5` (so with `nestingLevel = 6 > 5`), the variables at that moment are
`companyId = n1`, `year = n3`, `month = n4` and `date = n5`, whatever siblings were visited
before, and the call is the terminal evaluation with exactly these values. -/
theorem C9_variables_belong_to_path (fs : FileSystem) (pol : RetentionMap) (now : Time)
    (root : String) (g0 g : Globals) (n1 n2 n3 n4 n5 : String)
    (h : Invoked fs pol now root g0 [n1, n2, n3, n4, n5] g) :
    g.companyId = n1 ∧ g.year = n3 ∧ g.month = n4 ∧ g.date = n5 ∧
    determineFilesToBeDeletedHelper fs pol now (joinPath root [n1, n2, n3, n4, n5]) 6 g =
      evalTerminal pol now (joinPath root [n1, n2, n3, n4, n5])
        ⟨n1, n3, n4, n5, g.dirsToBeDeleted⟩ := by
  obtain ⟨h1, h3, h4, h5⟩ := h.agree
  have e1 : g.companyId = n1 := h1 (by simp)
  have e3 : g.year = n3 := h3 (by simp)
  have e4 : g.month = n4 := h4 (by simp)
  have e5 : g.date = n5 := h5 (by simp)
  refine ⟨e1, e3, e4, e5, ?_⟩
  rw [determineFilesToBeDeletedHelper_eq]
  simp only [show 6 > 5 by omega, if_true]
  congr 1
  cases g
  simp only at e1 e3 e4 e5
  rw [e1, e3, e4, e5]

/-- Witness of C9: the terminal evaluation of `/data/zeta/dev9/2023/12/22` in `exampleFs`, reached
after the whole tenant `acme`, whose last day was `2024/1/1`, has been walked. -/
theorem C9_variables_belong_to_path_witness :
    exampleAtZeta.companyId = "zeta" ∧ exampleAtZeta.year = "2023" ∧
    exampleAtZeta.month = "12" ∧ exampleAtZeta.date = "22" ∧
    determineFilesToBeDeletedHelper exampleFs examplePolicy exampleNow
        (joinPath "/data" ["zeta", "dev9", "2023", "12", "22"]) 6 exampleAtZeta =
      evalTerminal examplePolicy exampleNow (joinPath "/data" ["zeta", "dev9", "2023", "12", "22"])
        ⟨"zeta", "2023", "12", "22", exampleAtZeta.dirsToBeDeleted⟩ :=
  C9_variables_belong_to_path exampleFs examplePolicy exampleNow "/data" initGlobals
    exampleAtZeta "zeta" "dev9" "2023" "12" "22" exampleFs_invoked_zeta

set_option maxRecDepth 100000 in
/-- **C10.** A regular file at depth 5 is appended like a directory: in `exampleFs` the entry `16`
of `/data/acme/dev1/2020/1` is not a directory and cannot be listed, and the run appends
`/data/acme/dev1/2020/1/16` to `dirsToBeDeleted`. -/
theorem C10_regular_file_at_depth_five_is_appended :
    determineFilesToBeDeleted exampleFs examplePolicy exampleNow "/data" initGlobals =
      .ok exampleEnd ∧
    "/data/acme/dev1/2020/1/16" ∈ exampleEnd.dirsToBeDeleted ∧
    exampleFs "/data/acme/dev1/2020/1" = some [⟨".tmp", true⟩, ⟨"15", true⟩, ⟨"16", false⟩] ∧
    exampleFs "/data/acme/dev1/2020/1/16" = none := by
  refine ⟨by decide, by decide, by decide, by decide⟩

/-- **C11.** The walk never reports a path twice: on every file system in which the entries of
each listing have pairwise distinct names free of `/`, a run that starts with an empty
`dirsToBeDeleted` and returns leaves a list without duplicates. -/
theorem C11_no_path_twice (fs : FileSystem) (pol : RetentionMap) (now : Time) (root : String)
    (g g1 : Globals) (hns : NoSlash fs) (hdn : DistinctNames fs)
    (hempty : g.dirsToBeDeleted = [])
    (hrun : determineFilesToBeDeleted fs pol now root g = .ok g1) :
    g1.dirsToBeDeleted.Nodup := by
  obtain ⟨_, hdirs⟩ := determineFilesToBeDeleted_ok hrun
  rw [hdirs, hempty, List.nil_append]
  exact List.Nodup.sublist
    (filterMap_sublist_of_imp _ _ (expiredPath_path pol now) _)
    (paths_events_nodup hns hdn 5 root [])

/-- Witness of C11: the run on `exampleFs`, which reports three paths. -/
theorem C11_no_path_twice_witness : exampleEnd.dirsToBeDeleted.Nodup :=
  C11_no_path_twice exampleFs examplePolicy exampleNow "/data" initGlobals exampleEnd
    exampleFs_noSlash (tableFs_distinctNames _ (by decide)) rfl exampleFs_run

/-- **C12.** The walk is append-only and depth-first: when the run returns, `dirsToBeDeleted` is
its content before the call followed by the expired depth-5 paths in depth-first order, the
entries of each directory taken in the order of its listing; so the expired paths of the tenants
listed first come, tenant by tenant, before those of the tenants listed after them. -/
theorem C12_append_only_depth_first (fs : FileSystem) (pol : RetentionMap) (now : Time)
    (root : String) (g g1 : Globals)
    (hrun : determineFilesToBeDeleted fs pol now root g = .ok g1) :
    g1.dirsToBeDeleted = g.dirsToBeDeleted ++ expiredBelow fs pol now 5 root [] ∧
    (∀ first rest, visibleNames fs root = first ++ rest →
      g1.dirsToBeDeleted = g.dirsToBeDeleted ++
        first.flatMap (fun t => expiredBelow fs pol now 4 (root ++ "/" ++ t) [t]) ++
        rest.flatMap (fun t => expiredBelow fs pol now 4 (root ++ "/" ++ t) [t])) := by
  obtain ⟨_, hdirs⟩ := determineFilesToBeDeleted_ok hrun
  rw [events_expiredBelow] at hdirs
  refine ⟨hdirs, fun first rest hsplit => ?_⟩
  rw [hdirs, List.append_assoc, ← List.flatMap_append, ← hsplit]
  rfl

set_option maxRecDepth 100000 in
/-- Witness of C12: on `exampleFs` the two expired paths of `acme` come before the one of `zeta`,
which is listed after `acme`. -/
theorem C12_append_only_depth_first_witness :
    exampleEnd.dirsToBeDeleted =
      initGlobals.dirsToBeDeleted ++ expiredBelow exampleFs examplePolicy exampleNow 5 "/data" [] ∧
    expiredBelow exampleFs examplePolicy exampleNow 5 "/data" [] =
      ["/data/acme/dev1/2020/1/15", "/data/acme/dev1/2020/1/16", "/data/zeta/dev9/2023/12/22"] :=
  ⟨(C12_append_only_depth_first exampleFs examplePolicy exampleNow "/data" initGlobals exampleEnd
    exampleFs_run).1, by decide⟩

/-- **C13.** When the policy mapping has neither the tenant nor the key `"default"` (an empty or
nil mapping included), the retention used for the tenant is 0 and no error is raised: a terminal
evaluation of that tenant whose date parses and whose age is at least one day returns with its
path appended, so every reached depth-5 entry of the tenant with such an age is in
`dirsToBeDeleted` when the run returns; an elapsed time of at least 24 hours is such an age. -/
theorem C13_no_default_means_zero (pol : RetentionMap) (t : String) (ht : pol t = none)
    (hdef : pol "default" = none) :
    lookupRetention pol t = 0 ∧
    (∀ (now : Time) (topDir : String) (g : Globals) (dt : Time), g.companyId = t →
      timeParse (g.year ++ "/" ++ g.month ++ "/" ++ g.date) = some dt → 1 ≤ dateDiff now dt →
      evalTerminal pol now topDir g =
        .ok { g with dirsToBeDeleted := g.dirsToBeDeleted ++ [topDir] }) ∧
    (∀ (fs : FileSystem) (now : Time) (root : String) (g g1 : Globals) (dv y m d : String)
      (dt : Time), determineFilesToBeDeleted fs pol now root g = .ok g1 →
      Reach fs root [t, dv, y, m, d] → timeParse (y ++ "/" ++ m ++ "/" ++ d) = some dt →
      1 ≤ dateDiff now dt → joinPath root [t, dv, y, m, d] ∈ g1.dirsToBeDeleted) ∧
    (∀ now dt : Time, 24 * Hour ≤ now.unixNano - dt.unixNano → 1 ≤ dateDiff now dt) := by
  have h0 : lookupRetention pol t = 0 := by simp [lookupRetention, ht, hdef]
  refine ⟨h0, ?_, ?_, one_le_dateDiff⟩
  · intro now topDir g dt hg hdt hage
    have hexp : dateDiff now dt > lookupRetention pol g.companyId := by rw [hg, h0]; omega
    simp only [evalTerminal, hdt, hexp, if_true]
  · intro fs now root g g1 dv y m d dt hrun hreach hdt hage
    exact reached_mem_of_expired hrun hreach hdt (by rw [h0]; omega)

set_option maxRecDepth 100000 in
/-- Witness of C13: under the empty policy the day directory 2023/12/31, one day old at the
reference time 2024-01-01, is reported. -/
theorem C13_no_default_means_zero_witness :
    lookupRetention emptyPolicy "acme" = 0 ∧
    dateDiff exampleNow (Date 2023 12 31) = 1 ∧
    joinPath "/data" ["acme", "dev1", "2023", "12", "31"] ∈ recentEnd.dirsToBeDeleted :=
  ⟨(C13_no_default_means_zero emptyPolicy "acme" rfl rfl).1, by decide,
    (C13_no_default_means_zero emptyPolicy "acme" rfl rfl).2.2.1 recentFs exampleNow "/data"
      initGlobals recentEnd "dev1" "2023" "12" "31" (Date 2023 12 31) recentFs_run recentFs_reach
      (by decide) (by decide)⟩

/-- **C14.** A directory dated at or after the reference time is never expired under a
non-negative retention: for a reached depth-5 entry `root/t/dv/y/m/d` whose parsed date is not
earlier than the reference time, and a policy whose retention for `t` is at least 0, the age is at
most 0, the terminal evaluation leaves the list as it is, and the path, if it was not in
`dirsToBeDeleted` before, is not in it when the run returns. -/
theorem C14_not_earlier_never_expired (fs : FileSystem) (pol : RetentionMap) (now : Time)
    (root : String) (g g1 : Globals) (t dv y m d : String) (dt : Time) (hns : NoSlash fs)
    (hnew : joinPath root [t, dv, y, m, d] ∉ g.dirsToBeDeleted)
    (hrun : determineFilesToBeDeleted fs pol now root g = .ok g1)
    (hreach : Reach fs root [t, dv, y, m, d])
    (hdt : timeParse (y ++ "/" ++ m ++ "/" ++ d) = some dt)
    (hlate : now.unixNano ≤ dt.unixNano) (hret : 0 ≤ lookupRetention pol t) :
    dateDiff now dt ≤ 0 ∧
    (∀ topDir dirs, evalTerminal pol now topDir ⟨t, y, m, d, dirs⟩ = .ok ⟨t, y, m, d, dirs⟩) ∧
    joinPath root [t, dv, y, m, d] ∉ g1.dirsToBeDeleted := by
  have hage := dateDiff_nonpos now dt hlate
  have hnot : ¬ dateDiff now dt > lookupRetention pol t := by omega
  refine ⟨hage, fun topDir dirs => ?_, fun hmem => hnot ((reached_mem_iff hns hnew hrun hreach hdt).mp hmem)⟩
  simp only [evalTerminal, hdt, hnot, if_false]

/-- Witness of C14: the day directory 2024/1/1 of `acme` at the reference time 2024-01-01. -/
theorem C14_not_earlier_never_expired_witness :
    dateDiff exampleNow exampleNow ≤ 0 ∧
    (∀ topDir dirs, evalTerminal examplePolicy exampleNow topDir ⟨"acme", "2024", "1", "1", dirs⟩ =
      .ok ⟨"acme", "2024", "1", "1", dirs⟩) ∧
    joinPath "/data" ["acme", "dev1", "2024", "1", "1"] ∉ exampleEnd.dirsToBeDeleted :=
  C14_not_earlier_never_expired exampleFs examplePolicy exampleNow "/data" initGlobals exampleEnd
    "acme" "dev1" "2024" "1" "1" exampleNow exampleFs_noSlash (by decide) exampleFs_run
    exampleFs_reach_acme_2024 (by decide) (le_refl _) (by decide)

/-- **C15.** Expiry is monotone in the reference time: for reference times `t1 ≤ t2` the age of
every date at `t1` is at most its age at `t2`; hence, for every file system, policy and initial
variables, when the run at `t1` returns, the run at `t2` returns as well and its list holds every
path of the list of the run at `t1`, in the same order. -/
theorem C15_expiry_monotone_in_reference_time (t1 t2 : Time) (h : t1.unixNano ≤ t2.unixNano) :
    (∀ d : Time, dateDiff t1 d ≤ dateDiff t2 d) ∧
    (∀ (fs : FileSystem) (pol : RetentionMap) (root : String) (g g1 : Globals),
      determineFilesToBeDeleted fs pol t1 root g = .ok g1 →
      ∃ g2, determineFilesToBeDeleted fs pol t2 root g = .ok g2 ∧
        g1.dirsToBeDeleted.Sublist g2.dirsToBeDeleted ∧
        ∀ q ∈ g1.dirsToBeDeleted, q ∈ g2.dirsToBeDeleted) := by
  refine ⟨fun d => dateDiff_mono t1 t2 d h, ?_⟩
  intro fs pol root g g1 hrun
  obtain ⟨hparse, hdirs1⟩ := determineFilesToBeDeleted_ok hrun
  have hm := determineFilesToBeDeleted_events fs pol t2 root g
  rw [runEvents_ok pol t2 _ hparse] at hm
  cases hr : determineFilesToBeDeleted fs pol t2 root g with
  | error a => rw [hr] at hm; simp [dirsOf] at hm
  | ok g2 =>
    rw [hr] at hm
    simp only [dirsOf, Except.ok.injEq] at hm
    have hsub : g1.dirsToBeDeleted.Sublist g2.dirsToBeDeleted := by
      rw [hdirs1, hm]
      exact List.Sublist.append (List.Sublist.refl _)
        (filterMap_sublist_of_imp _ _ (expiredPath_mono pol t1 t2 h) _)
    exact ⟨g2, rfl, hsub, fun q hq => hsub.subset hq⟩

/-- Witness of C15: `exampleFs` at the reference times 2024-01-01 and 2024-06-19; at the later one
the day directory 2024/1/1 of `acme` is reported in addition. -/
theorem C15_expiry_monotone_in_reference_time_witness :
    exampleNow.unixNano ≤ boundaryNow.unixNano ∧
    (∃ g2, determineFilesToBeDeleted exampleFs examplePolicy boundaryNow "/data" initGlobals =
        .ok g2 ∧
      exampleEnd.dirsToBeDeleted.Sublist g2.dirsToBeDeleted ∧
      ∀ q ∈ exampleEnd.dirsToBeDeleted, q ∈ g2.dirsToBeDeleted) ∧
    determineFilesToBeDeleted exampleFs examplePolicy boundaryNow "/data" initGlobals =
      .ok exampleEndLater :=
  ⟨by decide,
    (C15_expiry_monotone_in_reference_time exampleNow boundaryNow (by decide)).2 exampleFs
      examplePolicy "/data" initGlobals exampleEnd exampleFs_run,
    exampleFs_run_later⟩

end FsGc
